import Mathlib

/-!
# Size plugin of andres-erbsen/protobuf: the generated `Size` method

Source: `plugin/size/size.go`.  The plugin prints, for every sizer-enabled
message, a Go method `Size` together with the two helpers `sov` (size of a
varint) and `soz` (size of a zigzag varint).  The development below gives the
meaning of the printed code as Lean functions, branch by branch, and proves the
statements of the specification about it.

Conventions of the embedding.

* Go `uint64`, `uint32` values are natural numbers below `2^64`, `2^32`; the
  conversions `uint64(.)`, `uint32(.)`, `int64(.)` are written out with `%`.
* Go `int` quantities that hold lengths and byte counts (`n`, `l`, `len(..)`)
  are natural numbers; the model is exact as long as a total stays below
  `2^63`, which holds for every value that fits in memory.
* A runtime value of a generated struct is a `Val`; a message value carries the
  descriptor of its own message type, so that a call `e.Size()` is the
  generated method of the type of `e`.
-/

namespace Size

/-! ## Machine integer conversions -/

/-- Go conversion `uint32(i)` of a signed integer. -/
def uint32 (i : Int) : Nat := (i % 2 ^ 32).toNat

/-- Go conversion `uint64(i)` of a signed integer (sign extension, then
two's complement). -/
def uint64 (i : Int) : Nat := (i % 2 ^ 64).toNat

/-- Go conversion `int64(x)` of an unsigned 64-bit value. -/
def int64 (x : Nat) : Int :=
  if x % 2 ^ 64 < 2 ^ 63 then (x % 2 ^ 64 : Nat) else (x % 2 ^ 64 : Nat) - 2 ^ 64

/-! ## `keySize`, `sov`, `soz` (size.go lines 167-195) -/

/-- The loop of `keySize`: `for size = 0; x > 127; size++ { x >>= 7 }; size++`. -/
def keySizeLoop (x size : Nat) : Nat :=
  if x > 127 then keySizeLoop (x >>> 7) (size + 1) else size + 1
termination_by x
decreasing_by
  simp only [Nat.shiftRight_eq_div_pow]
  omega

/-- Source `keySize(fieldNumber int32, wireType int) int`:
`x := uint32(fieldNumber)<<3 | uint32(wireType)` followed by the loop.  The
shift is a 32-bit shift. -/
def keySize (fieldNumber : Int) (wireType : Int) : Nat :=
  keySizeLoop ((uint32 fieldNumber <<< 3) % 2 ^ 32 ||| uint32 wireType) 0

/-- The loop of the generated `sov`: `for { n++; x >>= 7; if x == 0 { break } }`. -/
def sovLoop (x n : Nat) : Nat :=
  if x >>> 7 = 0 then n + 1 else sovLoop (x >>> 7) (n + 1)
termination_by x
decreasing_by
  simp only [Nat.shiftRight_eq_div_pow] at *
  omega

/-- Generated `func sov(x uint64) (n int)`. -/
def sov (x : Nat) : Nat := sovLoop x 0

/-- Generated `func soz(x uint64) (n int)`:
`sov(uint64((x << 1) ^ uint64((int64(x) >> 63))))`. -/
def soz (x : Nat) : Nat :=
  sov (uint64 (((x <<< 1) % 2 ^ 64 ^^^ uint64 ((int64 x).shiftRight 63) : Nat) : Int))

/-! ## Descriptors -/

/-- The enumeration `descriptor.FieldDescriptorProto_Type`. -/
inductive FieldType
  | TYPE_DOUBLE | TYPE_FLOAT | TYPE_INT64 | TYPE_UINT64 | TYPE_INT32 | TYPE_FIXED64
  | TYPE_FIXED32 | TYPE_BOOL | TYPE_STRING | TYPE_GROUP | TYPE_MESSAGE | TYPE_BYTES
  | TYPE_UINT32 | TYPE_ENUM | TYPE_SFIXED32 | TYPE_SFIXED64 | TYPE_SINT32 | TYPE_SINT64
  deriving DecidableEq, Repr

/-- The wire names returned by `generator.GoType` and consumed by `wireToType`. -/
inductive Wire
  | fixed64 | fixed32 | varint | bytes | group | zigzag32 | zigzag64
  deriving DecidableEq, Repr

/-- Modelled from the spec: the constant `proto.WireVarint` (package `proto` is
not part of the sources at hand); section 4.3 gives Varint=0. -/
def WireVarint : Int := 0

/-- Modelled from the spec: the constant `proto.WireFixed64`; section 4.3 gives
Fixed64=1. -/
def WireFixed64 : Int := 1

/-- Modelled from the spec: the constant `proto.WireBytes`; section 4.3 gives
LengthDelimited=2. -/
def WireBytes : Int := 2

/-- Modelled from the spec: the constant `proto.WireFixed32`; section 4.3 gives
Fixed32=5. -/
def WireFixed32 : Int := 5

/-- Modelled from the spec: the wire name that `generator.GoType` (package
`generator`, not part of the sources at hand) returns for a field, by type
family as in section 4.4: the fixed 64-bit and 32-bit families, the varint
family with bool, the length-delimited types, group, and the two zigzag
types. -/
def GoTypeWire : FieldType → Wire
  | .TYPE_DOUBLE => .fixed64
  | .TYPE_FLOAT => .fixed32
  | .TYPE_INT64 => .varint
  | .TYPE_UINT64 => .varint
  | .TYPE_INT32 => .varint
  | .TYPE_UINT32 => .varint
  | .TYPE_FIXED64 => .fixed64
  | .TYPE_FIXED32 => .fixed32
  | .TYPE_BOOL => .varint
  | .TYPE_STRING => .bytes
  | .TYPE_GROUP => .group
  | .TYPE_MESSAGE => .bytes
  | .TYPE_BYTES => .bytes
  | .TYPE_ENUM => .varint
  | .TYPE_SFIXED32 => .fixed32
  | .TYPE_SFIXED64 => .fixed64
  | .TYPE_SINT32 => .zigzag32
  | .TYPE_SINT64 => .zigzag64

/-- Source `wireToType(wire string) int` (lines 147-165); the wire names are
the closed enumeration `Wire`, so the final `panic("unreachable")` has no
input. -/
def wireToType : Wire → Int
  | .fixed64 => WireFixed64
  | .fixed32 => WireFixed32
  | .varint => WireVarint
  | .bytes => WireBytes
  | .group => WireBytes
  | .zigzag32 => WireVarint
  | .zigzag64 => WireVarint

/-- The synthetic map-entry message of a map field, as read by
`generator.GetMap` and `GetMapFields`: the types of its key field (number 1)
and of its value field (number 2). -/
structure MapDesc where
  keyType : FieldType
  valueType : FieldType
  deriving DecidableEq, Repr

/-- What `Generate` reads of one `FieldDescriptorProto`: `GetNumber`, `Type`,
`IsRepeated`, `IsPacked`, `gogoproto.IsNullable`, `gogoproto.IsCustomType`, and
`generator.IsMap` with `generator.GetMap` (`map = some _` for a map field). -/
structure FieldDesc where
  number : Int
  type : FieldType
  repeated : Bool
  packed : Bool
  nullable : Bool
  customtype : Bool
  map : Option MapDesc
  deriving DecidableEq, Repr

/-- Descriptor method `field.IsMessage()`. -/
def FieldDesc.IsMessage (field : FieldDesc) : Bool :=
  decide (field.type = FieldType.TYPE_MESSAGE)

/-- What `Generate` reads of one message descriptor: its fields,
`gogoproto.IsSizer`, the `MapEntry` option, `HasExtension`,
`gogoproto.HasExtensionsMap` and `gogoproto.HasUnrecognized`. -/
structure MessageDesc where
  fields : List FieldDesc
  sizer : Bool
  mapEntry : Bool
  hasExtension : Bool
  extensionsMap : Bool
  hasUnrecognized : Bool
  deriving DecidableEq, Repr

/-! ## Runtime values -/

/-- The field `XXX_extensions` of a generated struct: nil, a byte slice, or
(with `goproto_extensions_map`) a map of extensions, each held with its
encoded bytes. -/
inductive Extensions
  | nil
  | bytes (b : List Nat)
  | map (encoded : List (List Nat))
  deriving DecidableEq, Repr

/-- Runtime values of the fields of a generated struct.  `nil` is a nil pointer,
slice or map; `int` any integer or enum value; `float64` and `float32` carry the
IEEE bit pattern; `bytes` is a string or a byte slice; `custom` is a value of a
custom type, held as the bytes its own `Marshal` writes; `list` a slice; `map` a
Go map as the list of its entries; `msg` a message with the syntax of its file
(`proto3`), its descriptor and its field values in declaration order. -/
inductive Val
  | nil
  | int (i : Int)
  | float64 (bits : Nat)
  | float32 (bits : Nat)
  | bool (b : Bool)
  | bytes (b : List Nat)
  | custom (marshalled : List Nat)
  | list (es : List Val)
  | map (kvs : List (Val × Val))
  | msg (proto3 : Bool) (desc : MessageDesc) (fields : List Val)
      (XXX_extensions : Extensions) (XXX_unrecognized : Option (List Nat))

/-- Go test `x == nil`. -/
def Val.isNil : Val → Bool
  | .nil => true
  | _ => false

/-- Go `len(x)` of a string, slice or map. -/
def Val.len : Val → Nat
  | .bytes b => b.length
  | .list es => es.length
  | .map kvs => kvs.length
  | _ => 0

/-- The elements visited by `for _, e := range x` over a slice. -/
def Val.elems : Val → List Val
  | .list es => es
  | _ => []

/-- The entries visited by `for k, v := range x` over a map. -/
def Val.entries : Val → List (Val × Val)
  | .map kvs => kvs
  | _ => []

/-- Go conversion `uint64(e)` of an integer or enum value. -/
def Val.u64 : Val → Nat
  | .int i => uint64 i
  | _ => 0

/-- Go test `x != 0` on a numeric value; a float differs from 0 unless it is
one of the two signed zeros. -/
def Val.neZero : Val → Bool
  | .int i => decide (i ≠ 0)
  | .float64 bits => decide (bits % 2 ^ 63 ≠ 0)
  | .float32 bits => decide (bits % 2 ^ 31 ≠ 0)
  | _ => false

/-- Go condition `if x` on a bool value. -/
def Val.isTrue : Val → Bool
  | .bool b => b
  | _ => false

/-- Go test `m.XXX_extensions == nil`. -/
def Extensions.isNil : Extensions → Bool
  | .nil => true
  | _ => false

/-- Go `len(m.XXX_extensions)` of the byte-slice representation. -/
def Extensions.len : Extensions → Nat
  | .bytes b => b.length
  | _ => 0

/-- Modelled from the spec: `proto.SizeOfExtensionMap` (package `proto`, not
part of the sources at hand).  Extensions are opaque byte ranges whose length
is added verbatim (section 4.6): the sum of the encoded lengths. -/
def SizeOfExtensionMap : Extensions → Nat
  | .map encoded => (encoded.map List.length).sum
  | _ => 0

/-! ## The code printed by `Generate` (size.go lines 197-532) -/

/-- The summand appended for the key of a map entry (lines 361-384). -/
def mapKeySum (keyType : FieldType) (k : Val) : Nat :=
  match keyType with
  | .TYPE_DOUBLE | .TYPE_FIXED64 | .TYPE_SFIXED64 => 8
  | .TYPE_FLOAT | .TYPE_FIXED32 | .TYPE_SFIXED32 => 4
  | .TYPE_INT64 | .TYPE_UINT64 | .TYPE_UINT32 | .TYPE_ENUM | .TYPE_INT32 => sov k.u64
  | .TYPE_BOOL => 1
  | .TYPE_STRING | .TYPE_BYTES => k.len + sov k.len
  | .TYPE_SINT32 | .TYPE_SINT64 => soz k.u64
  | _ => 0

/-- The summand appended for the value of a map entry (lines 386-417);
`vSize` is the result of the call `v.Size()`. -/
def mapValueSum (valueType : FieldType) (v : Val) (vSize : Nat) : Nat :=
  match valueType with
  | .TYPE_DOUBLE | .TYPE_FIXED64 | .TYPE_SFIXED64 => 8
  | .TYPE_FLOAT | .TYPE_FIXED32 | .TYPE_SFIXED32 => 4
  | .TYPE_INT64 | .TYPE_UINT64 | .TYPE_UINT32 | .TYPE_ENUM | .TYPE_INT32 => sov v.u64
  | .TYPE_BOOL => 1
  | .TYPE_STRING | .TYPE_BYTES => v.len + sov v.len
  | .TYPE_SINT32 | .TYPE_SINT64 => soz v.u64
  | .TYPE_MESSAGE =>
    let l := if !v.isNil then vSize else 0
    l + sov l
  | _ => 0

/-- The statements printed for one field (lines 220-500), as the number they
add to `n` when run on the field value `m_f`.  `fSize` is the result of the
call `m.f.Size()` and `eSizes` the results of the calls `e.Size()` for the
elements of a repeated field, respectively `v.Size()` for the values of a map,
in iteration order.  For `TYPE_GROUP` the generator panics and prints nothing;
the model returns 0 there. -/
def sizeField (proto3 : Bool) (field : FieldDesc) (m_f : Val) (fSize : Nat)
    (eSizes : List Nat) : Nat :=
  let nullable := field.nullable
  let repeated := field.repeated
  if repeated && !(decide (m_f.len > 0)) then 0
  else if !repeated && (((!proto3 || field.IsMessage) && nullable)
      || (!field.customtype && decide (field.type = FieldType.TYPE_BYTES))) && m_f.isNil then 0
  else
    let packed := field.packed
    let wireType := if packed then WireBytes else wireToType (GoTypeWire field.type)
    let key := keySize field.number wireType
    match field.type with
    | .TYPE_DOUBLE | .TYPE_FIXED64 | .TYPE_SFIXED64 =>
      if packed then key + sov (m_f.len * 8) + m_f.len * 8
      else if repeated then (key + 8) * m_f.len
      else if proto3 then (if m_f.neZero then key + 8 else 0)
      else if nullable then key + 8
      else key + 8
    | .TYPE_FLOAT | .TYPE_FIXED32 | .TYPE_SFIXED32 =>
      if packed then key + sov (m_f.len * 4) + m_f.len * 4
      else if repeated then (key + 4) * m_f.len
      else if proto3 then (if m_f.neZero then key + 4 else 0)
      else if nullable then key + 4
      else key + 4
    | .TYPE_INT64 | .TYPE_UINT64 | .TYPE_UINT32 | .TYPE_ENUM | .TYPE_INT32 =>
      if packed then
        let l := (m_f.elems.map (fun e => sov e.u64)).sum
        key + sov l + l
      else if repeated then (m_f.elems.map (fun e => key + sov e.u64)).sum
      else if proto3 then (if m_f.neZero then key + sov m_f.u64 else 0)
      else if nullable then key + sov m_f.u64
      else key + sov m_f.u64
    | .TYPE_BOOL =>
      if packed then key + sov m_f.len + m_f.len * 1
      else if repeated then (key + 1) * m_f.len
      else if proto3 then (if m_f.isTrue then key + 1 else 0)
      else if nullable then key + 1
      else key + 1
    | .TYPE_STRING =>
      if repeated then (m_f.elems.map (fun s => key + s.len + sov s.len)).sum
      else if proto3 then (if m_f.len > 0 then key + m_f.len + sov m_f.len else 0)
      else if nullable then key + m_f.len + sov m_f.len
      else key + m_f.len + sov m_f.len
    | .TYPE_GROUP => 0
    | .TYPE_MESSAGE =>
      match field.map with
      | some mapMsg =>
        let fieldKeySize := keySize field.number (wireToType (GoTypeWire field.type))
        let keyKeySize := keySize 1 (wireToType (GoTypeWire mapMsg.keyType))
        let valueKeySize := keySize 2 (wireToType (GoTypeWire mapMsg.valueType))
        ((m_f.entries.zip eSizes).map (fun kv =>
          let mapEntrySize := keyKeySize + mapKeySum mapMsg.keyType kv.1.1
            + valueKeySize + mapValueSum mapMsg.valueType kv.1.2 kv.2
          mapEntrySize + fieldKeySize + sov mapEntrySize)).sum
      | none =>
        if repeated then (eSizes.map (fun l => key + l + sov l)).sum
        else key + fSize + sov fSize
    | .TYPE_BYTES =>
      if !field.customtype then
        if repeated then (m_f.elems.map (fun b => key + b.len + sov b.len)).sum
        else if proto3 then (if m_f.len > 0 then key + m_f.len + sov m_f.len else 0)
        else key + m_f.len + sov m_f.len
      else
        if repeated then (eSizes.map (fun l => key + l + sov l)).sum
        else key + fSize + sov fSize
    | .TYPE_SINT32 | .TYPE_SINT64 =>
      if packed then
        let l := (m_f.elems.map (fun e => soz e.u64)).sum
        key + sov l + l
      else if repeated then (m_f.elems.map (fun e => key + soz e.u64)).sum
      else if proto3 then (if m_f.neZero then key + soz m_f.u64 else 0)
      else if nullable then key + soz m_f.u64
      else key + soz m_f.u64

/-- The statements printed after the field loop (lines 501-518): the
extensions and the unrecognized bytes. -/
def sizeTrailer (desc : MessageDesc) (ext : Extensions) (unrec : Option (List Nat)) : Nat :=
  (if desc.hasExtension && !ext.isNil then
      (if desc.extensionsMap then SizeOfExtensionMap ext else ext.len)
    else 0)
  + (if desc.hasUnrecognized then
      (match unrec with
        | some b => b.length
        | none => 0)
    else 0)

mutual
/-- The generated method `func (m *T) Size() (n int)` of the message type of
the value: the number it returns when it returns.  The method is printed
without a nil test (lines 216-219) and reads its fields through `m`, so on a
nil receiver it has no result; the function is total and takes the value 0
there, which no printed statement uses as a result: the call sites guarded by
`m.f != nil` and `v != nil` skip the call, and the unguarded ones (lines 425,
430, 457, 462) are described by `Val.nilFree`.  Modelled from the spec: the
`Size` method of a custom type is user code outside the plugin; section 3
treats a custom type as a nested sized value, so its `Size` is the number of
bytes it marshals to. -/
def Val.Size : Val → Nat
  | .msg proto3 desc fields ext unrec =>
    sizeFields proto3 desc.fields fields + sizeTrailer desc ext unrec
  | .custom marshalled => marshalled.length
  | _ => 0
/-- The field loop `for _, field := range message.Field`: the printed
statements run one after the other on the fields of the value. -/
def sizeFields (proto3 : Bool) : List FieldDesc → List Val → Nat
  | field :: fds, m_f :: vs =>
    sizeField proto3 field m_f (Val.Size m_f) (elemSizes m_f) + sizeFields proto3 fds vs
  | _, _ => 0
/-- The results of the calls `e.Size()` on the elements of a slice, or
`v.Size()` on the values of a map. -/
def elemSizes : Val → List Nat
  | .list es => listSizes es
  | .map kvs => valueSizes kvs
  | _ => []
/-- The results of `e.Size()` along a slice. -/
def listSizes : List Val → List Nat
  | [] => []
  | e :: es => Val.Size e :: listSizes es
/-- The results of `v.Size()` along the entries of a map. -/
def valueSizes : List (Val × Val) → List Nat
  | [] => []
  | (_, v) :: kvs => Val.Size v :: valueSizes kvs
end

/-- What `Generate` reads of a file descriptor: `gogoproto.IsProto3` and
`file.Messages()`. -/
structure FileDesc where
  proto3 : Bool
  messages : List MessageDesc

/-- The two ways `Generate` panics while printing a switch case. -/
inductive Panic
  | unsupportedGroup
  | notImplemented
  deriving DecidableEq, Repr

/-- The field loop of `Generate` as far as it can fail: the case `TYPE_GROUP`
panics with "size does not support group" (lines 344-345); every other type of
the enumeration has a case, so the `default` panic has no input. -/
def generateFields : List FieldDesc → Except Panic Unit
  | [] => .ok ()
  | field :: rest =>
    if field.type = FieldType.TYPE_GROUP then .error Panic.unsupportedGroup
    else generateFields rest

/-- The method `Size` printed for `message` in a file of the given syntax, as a
function of the receiver, a message value; on a nil receiver the printed
method has no result (see `Val.Size`) and the function takes the value 0. -/
def generatedSize (proto3 : Bool) (message : MessageDesc) : Val → Nat
  | .msg _ _ fields ext unrec =>
    sizeFields proto3 message.fields fields + sizeTrailer message ext unrec
  | _ => 0

/-- The message loop of `Generate` (lines 205-523): a message that is not
sizer-enabled, or that is a map entry, is skipped; for every other message the
method `Size` is printed, unless a field makes the generator panic. -/
def generateMessages (proto3 : Bool) :
    List MessageDesc → Except Panic (List (MessageDesc × (Val → Nat)))
  | [] => .ok []
  | message :: rest =>
    if !message.sizer then generateMessages proto3 rest
    else if message.mapEntry then generateMessages proto3 rest
    else
      match generateFields message.fields with
      | .error e => .error e
      | .ok _ =>
        match generateMessages proto3 rest with
        | .error e => .error e
        | .ok methods => .ok ((message, generatedSize proto3 message) :: methods)

/-- Source `func (p *size) Generate(file *generator.FileDescriptor)`: the
methods `Size` it prints, each with the descriptor of its message, or the
panic that stops it. -/
def Generate (file : FileDesc) : Except Panic (List (MessageDesc × (Val → Nat))) :=
  generateMessages file.proto3 file.messages

/-- The number one field adds to `n` inside the generated `Size`. -/
def fieldSize (proto3 : Bool) (field : FieldDesc) (m_f : Val) : Nat :=
  sizeField proto3 field m_f m_f.Size (elemSizes m_f)

/-- The calls of `Size` in the statements printed for one field all have a
receiver on which they return.  The only calls are `v.Size()` on a message
value of a map, made under `if v != nil` (lines 411-414), `e.Size()` on the
elements of a repeated message or custom-typed bytes field (lines 425, 457)
and `m.f.Size()` on a singular one (lines 430, 462), the last three without a
nil test of their own.  `fOK` says that the call `m.f.Size()` returns and
`eOK` the same for the elements, respectively the map values, in iteration
order.  The guards are those of `sizeField`. -/
def fieldNilFree (proto3 : Bool) (field : FieldDesc) (m_f : Val) (fOK : Bool)
    (eOK : List Bool) : Bool :=
  let nullable := field.nullable
  let repeated := field.repeated
  if repeated && !(decide (m_f.len > 0)) then true
  else if !repeated && (((!proto3 || field.IsMessage) && nullable)
      || (!field.customtype && decide (field.type = FieldType.TYPE_BYTES))) && m_f.isNil then true
  else
    match field.type with
    | .TYPE_MESSAGE =>
      match field.map with
      | some mapMsg =>
        if mapMsg.valueType = FieldType.TYPE_MESSAGE then
          (m_f.entries.zip eOK).all (fun kv => kv.1.2.isNil || kv.2)
        else true
      | none =>
        if repeated then eOK.all id
        else fOK
    | .TYPE_BYTES =>
      if !field.customtype then true
      else
        if repeated then eOK.all id
        else fOK
    | _ => true

mutual
/-- The call `v.Size()` returns: the receiver is not nil, and neither is the
receiver of any call of `Size` made while the method runs.  A generated method
reads `m.f` for its first field, or `m.XXX_unrecognized`, before anything else,
which on a nil `m` is a nil pointer dereference; a nil receiver is therefore
counted as a call that does not return. -/
def Val.nilFree : Val → Bool
  | .nil => false
  | .msg proto3 desc fields _ _ => fieldsNilFree proto3 desc.fields fields
  | _ => true
/-- The calls made by the field loop all return. -/
def fieldsNilFree (proto3 : Bool) : List FieldDesc → List Val → Bool
  | field :: fds, m_f :: vs =>
    fieldNilFree proto3 field m_f (Val.nilFree m_f) (elemNilFree m_f)
      && fieldsNilFree proto3 fds vs
  | _, _ => true
/-- Whether `e.Size()` returns, for the elements of a slice or the values of a
map. -/
def elemNilFree : Val → List Bool
  | .list es => listNilFree es
  | .map kvs => valuesNilFree kvs
  | _ => []
/-- Whether `e.Size()` returns, along a slice. -/
def listNilFree : List Val → List Bool
  | [] => []
  | e :: es => Val.nilFree e :: listNilFree es
/-- Whether `v.Size()` returns, along the entries of a map. -/
def valuesNilFree : List (Val × Val) → List Bool
  | [] => []
  | (_, v) :: kvs => Val.nilFree v :: valuesNilFree kvs
end

/-! ## The specification's functions -/

/-- Spec 4.1, `VarintLength`: `max(1, ceil(bit_length(x)/7))`. -/
def VarintLength (x : Nat) : Nat := max 1 ((Nat.size x + 6) / 7)

/-- Spec 4.2, the zigzag image of a signed integer: `2x` for `x >= 0` and
`-2x-1` for `x < 0`. -/
def zigzag (x : Int) : Nat := if 0 ≤ x then (2 * x).toNat else (-2 * x - 1).toNat

/-- Spec 4.2, `ZigZagLength`. -/
def ZigZagLength (x : Int) : Nat := VarintLength (zigzag x)

/-- Spec 4.3, the tag value `(fieldNumber << 3) | wireKind`, not truncated. -/
def tagValue (fieldNumber wireKind : Nat) : Nat := fieldNumber <<< 3 ||| wireKind

/-- Spec 4.3, `TagLength`. -/
def TagLength (fieldNumber wireKind : Nat) : Nat := VarintLength (tagValue fieldNumber wireKind)

/-- Spec 6, the bytes of a varint: little-endian base-128 groups, the
continuation bit 0x80 set on every byte except the last. -/
def varintBytes (x : Nat) : List Nat :=
  if x < 128 then [x] else (x % 128 + 128) :: varintBytes (x / 128)
termination_by x
decreasing_by omega

/-- Spec 6, the value of a little-endian base-128 byte sequence: the low seven
bits of every byte are payload. -/
def varintDecode (bs : List Nat) : Nat :=
  bs.foldr (fun b acc => b % 128 + 128 * acc) 0

/-- The Go type of an element of a scalar field: the range of an integer value,
the width of a float pattern, a bool, or a string or byte slice (a nil byte
slice included). -/
def hasType : FieldType → Val → Bool
  | .TYPE_DOUBLE, .float64 bits => decide (bits < 2 ^ 64)
  | .TYPE_FLOAT, .float32 bits => decide (bits < 2 ^ 32)
  | .TYPE_INT64, .int i => decide (-2 ^ 63 ≤ i ∧ i < 2 ^ 63)
  | .TYPE_SFIXED64, .int i => decide (-2 ^ 63 ≤ i ∧ i < 2 ^ 63)
  | .TYPE_SINT64, .int i => decide (-2 ^ 63 ≤ i ∧ i < 2 ^ 63)
  | .TYPE_UINT64, .int i => decide (0 ≤ i ∧ i < 2 ^ 64)
  | .TYPE_FIXED64, .int i => decide (0 ≤ i ∧ i < 2 ^ 64)
  | .TYPE_INT32, .int i => decide (-2 ^ 31 ≤ i ∧ i < 2 ^ 31)
  | .TYPE_SFIXED32, .int i => decide (-2 ^ 31 ≤ i ∧ i < 2 ^ 31)
  | .TYPE_SINT32, .int i => decide (-2 ^ 31 ≤ i ∧ i < 2 ^ 31)
  | .TYPE_ENUM, .int i => decide (-2 ^ 31 ≤ i ∧ i < 2 ^ 31)
  | .TYPE_UINT32, .int i => decide (0 ≤ i ∧ i < 2 ^ 32)
  | .TYPE_FIXED32, .int i => decide (0 ≤ i ∧ i < 2 ^ 32)
  | .TYPE_BOOL, .bool _ => true
  | .TYPE_STRING, .bytes _ => true
  | .TYPE_BYTES, .bytes _ => true
  | .TYPE_BYTES, .nil => true
  | _, _ => false

/-- The scalar types of the supported matrix: every type except group and
nested message. -/
def isScalar : FieldType → Bool
  | .TYPE_GROUP => false
  | .TYPE_MESSAGE => false
  | _ => true

/-- The numeric scalar types, the ones a packed field may have: every scalar
except string and bytes. -/
def isNumeric : FieldType → Bool
  | .TYPE_GROUP => false
  | .TYPE_MESSAGE => false
  | .TYPE_STRING => false
  | .TYPE_BYTES => false
  | _ => true

/-- Spec 4.4 and 8, the zero value of a scalar type: the number 0 (for a float
either signed zero, the values equal to 0), false, the empty string, the empty
or nil byte slice. -/
def isZeroValue : Val → Bool
  | .int i => decide (i = 0)
  | .float64 bits => decide (bits = 0 ∨ bits = 2 ^ 63)
  | .float32 bits => decide (bits = 0 ∨ bits = 2 ^ 31)
  | .bool b => !b
  | .bytes b => b.isEmpty
  | .nil => true
  | _ => false

/-- Spec 4.4, the payload of one scalar value: the width for the fixed
families, `VarintLength(v)` for the varint family (the value converted to
unsigned 64-bit), `ZigZagLength(v)` for sint, 1 for bool and
`VarintLength(len) + len` for string and bytes. -/
def payloadSize : FieldType → Val → Nat
  | .TYPE_DOUBLE, _ => 8
  | .TYPE_FIXED64, _ => 8
  | .TYPE_SFIXED64, _ => 8
  | .TYPE_FLOAT, _ => 4
  | .TYPE_FIXED32, _ => 4
  | .TYPE_SFIXED32, _ => 4
  | .TYPE_INT64, .int i => VarintLength (uint64 i)
  | .TYPE_UINT64, .int i => VarintLength (uint64 i)
  | .TYPE_INT32, .int i => VarintLength (uint64 i)
  | .TYPE_UINT32, .int i => VarintLength (uint64 i)
  | .TYPE_ENUM, .int i => VarintLength (uint64 i)
  | .TYPE_SINT32, .int i => ZigZagLength i
  | .TYPE_SINT64, .int i => ZigZagLength i
  | .TYPE_BOOL, _ => 1
  | .TYPE_STRING, v => VarintLength v.len + v.len
  | .TYPE_BYTES, v => VarintLength v.len + v.len
  | _, _ => 0

/-- Spec 4.3 and 4.4, the wire kind of a type: Fixed64=1 and Fixed32=5 for the
fixed families, LengthDelimited=2 for string, bytes and nested message,
Varint=0 for the rest. -/
def wireKind : FieldType → Int
  | .TYPE_DOUBLE => 1
  | .TYPE_FIXED64 => 1
  | .TYPE_SFIXED64 => 1
  | .TYPE_FLOAT => 5
  | .TYPE_FIXED32 => 5
  | .TYPE_SFIXED32 => 5
  | .TYPE_STRING => 2
  | .TYPE_BYTES => 2
  | .TYPE_MESSAGE => 2
  | .TYPE_GROUP => 2
  | _ => 0

/-- Spec 4.4, the payload length of a packed field: `count*8` for the fixed
64-bit family, `count*4` for the fixed 32-bit family, `count` for bool, the sum
of `VarintLength(e)` for the varint family and of `ZigZagLength(e)` for sint. -/
def packedPayloadLen (t : FieldType) (es : List Val) : Nat :=
  match t with
  | .TYPE_DOUBLE | .TYPE_FIXED64 | .TYPE_SFIXED64 => es.length * 8
  | .TYPE_FLOAT | .TYPE_FIXED32 | .TYPE_SFIXED32 => es.length * 4
  | .TYPE_BOOL => es.length
  | _ => (es.map (payloadSize t)).sum

/-- Spec 4.4 and 4.5, the length-delimited payload of a nested value whose own
size is `l`: `l + VarintLength(l)`. -/
def nestedPayload (l : Nat) : Nat := l + VarintLength l

/-- Spec 4.5, the size of one map entry, a synthetic two-field submessage:
`keyTag + keySize + valueTag + valueSize`, key as field 1 and value as field 2,
each sized by the rule of its type; `vSize` is the size of a message value. -/
def entrySize (m : MapDesc) (k v : Val) (vSize : Nat) : Nat :=
  keySize 1 (wireKind m.keyType) + payloadSize m.keyType k
    + keySize 2 (wireKind m.valueType)
    + (if m.valueType = FieldType.TYPE_MESSAGE then nestedPayload vSize
        else payloadSize m.valueType v)

/-! ## The paired encoder and valid values -/

/-- Modelled from the spec: a fixed-width value on the wire, `width` bytes in
little-endian order (the paired encoder is not part of the sources at hand). -/
def fixedBytes (width x : Nat) : List Nat :=
  (List.range width).map (fun i => x / 256 ^ i % 256)

/-- Modelled from the spec: section 6, the tag of a field on the wire, the
varint of `(field_number << 3) | wire_kind`. -/
def tagBytes (fieldNumber wireKind : Int) : List Nat :=
  varintBytes (tagValue fieldNumber.toNat wireKind.toNat)

/-- Modelled from the spec: section 6, a length-delimited value, the payload
prefixed with the varint of its length. -/
def lengthDelimited (payload : List Nat) : List Nat :=
  varintBytes payload.length ++ payload

/-- The 64-bit pattern of a numeric value. -/
def Val.bits : Val → Nat
  | .int i => uint64 i
  | .float64 bits => bits
  | .float32 bits => bits
  | _ => 0

/-- The bytes of a string or byte slice. -/
def Val.data : Val → List Nat
  | .bytes b => b
  | _ => []

/-- The signed integer held by a value. -/
def Val.toInt : Val → Int
  | .int i => i
  | _ => 0

/-- Modelled from the spec: section 6, the payload bytes of one scalar value:
fixed width in little-endian order, a varint of the value converted to
unsigned 64-bit, a varint of the zigzag image for sint, one byte for bool, and
length-prefixed bytes for string and bytes. -/
def encodeScalar (t : FieldType) (v : Val) : List Nat :=
  match t with
  | .TYPE_DOUBLE | .TYPE_FIXED64 | .TYPE_SFIXED64 => fixedBytes 8 v.bits
  | .TYPE_FLOAT | .TYPE_FIXED32 | .TYPE_SFIXED32 => fixedBytes 4 v.bits
  | .TYPE_INT64 | .TYPE_UINT64 | .TYPE_INT32 | .TYPE_UINT32 | .TYPE_ENUM =>
    varintBytes (uint64 v.toInt)
  | .TYPE_SINT32 | .TYPE_SINT64 => varintBytes (zigzag v.toInt)
  | .TYPE_BOOL => [if v.isTrue then 1 else 0]
  | .TYPE_STRING | .TYPE_BYTES => lengthDelimited v.data
  | _ => []

/-- A field whose values are sized by their own `Size`: a nested message or a
custom-typed bytes field (section 4.4). -/
def FieldDesc.isNested (field : FieldDesc) : Bool :=
  decide (field.type = FieldType.TYPE_MESSAGE)
    || (decide (field.type = FieldType.TYPE_BYTES) && field.customtype)

/-- Modelled from the spec: the bytes of one value of a field after its tag;
`nested` is the encoding of a nested message or custom-typed value, written
length-delimited. -/
def encodeElem (field : FieldDesc) (e : Val) (nested : List Nat) : List Nat :=
  if field.isNested then lengthDelimited nested else encodeScalar field.type e

/-- When the statements printed for a singular field add anything to `n`: the
field passes the presence guard `m.f != nil` where one is printed, and is not
a scalar of a proto3 file at a value the printed test `!= 0`, `if m.f` or
`len(m.f) > 0` rejects. -/
def isSized (proto3 : Bool) (field : FieldDesc) (v : Val) : Bool :=
  !v.isNil && !(proto3 && !field.isNested && isZeroValue v)

/-- Modelled from the spec: sections 4.4 and 8, the value at which a proto3
scalar is left out by the encoder, the zero value of its type (0, false, empty
string or bytes).  On the wire a float is its bit pattern: the zero value is
the all-zero pattern +0.0, and negative zero is a value that differs from
it. -/
def isDefault : Val → Bool
  | .int i => decide (i = 0)
  | .float64 bits => decide (bits = 0)
  | .float32 bits => decide (bits = 0)
  | .bool b => !b
  | .bytes b => b.isEmpty
  | .nil => true
  | _ => false

/-- Modelled from the spec: section 4.4 and the glossary, whether the encoder
writes a singular field.  A non-nullable field is always serialized regardless
of value, independent of proto3 or proto2; a nullable field is written when it
is present (not nil), except a proto3 scalar at the zero value of its type,
which is omitted entirely. -/
def isWritten (proto3 : Bool) (field : FieldDesc) (v : Val) : Bool :=
  if !field.nullable then true
  else !v.isNil && !(proto3 && !field.isNested && isDefault v)

/-- Modelled from the spec: section 4.5, the bytes of one map entry, a
two-field submessage with the key as field 1 and the value as field 2;
`vEnc` is the encoding of a message value. -/
def encodeEntry (m : MapDesc) (k v : Val) (vEnc : List Nat) : List Nat :=
  tagBytes 1 (wireKind m.keyType) ++ encodeScalar m.keyType k
    ++ tagBytes 2 (wireKind m.valueType)
    ++ (if m.valueType = FieldType.TYPE_MESSAGE then lengthDelimited vEnc
        else encodeScalar m.valueType v)

/-- Modelled from the spec: sections 4.4, 4.5 and 6, the bytes the paired
encoder writes for one field.  A map writes every entry as a length-delimited
submessage; a packed field writes one tag and the length-delimited run of its
elements, `tag + VarintLength(count * width) + count * width` bytes whatever
the count; an unpacked repeated field writes tag and value per element; a
singular field writes tag and value when it is written at all.  `fEnc` is the encoding of a nested singular value and `eEncs`
the encodings of nested elements or map values. -/
def encodeField (proto3 : Bool) (field : FieldDesc) (v : Val) (fEnc : List Nat)
    (eEncs : List (List Nat)) : List Nat :=
  match field.map with
  | some m =>
    ((v.entries.zip eEncs).map (fun kv =>
      tagBytes field.number 2 ++ lengthDelimited (encodeEntry m kv.1.1 kv.1.2 kv.2))).flatten
  | none =>
    if field.repeated then
      if field.packed then
        tagBytes field.number 2
          ++ lengthDelimited ((v.elems.map (encodeScalar field.type)).flatten)
      else if field.isNested then
        (eEncs.map (fun enc =>
          tagBytes field.number (wireKind field.type) ++ lengthDelimited enc)).flatten
      else
        (v.elems.map (fun e =>
          tagBytes field.number (wireKind field.type) ++ encodeScalar field.type e)).flatten
    else if isWritten proto3 field v then
      tagBytes field.number (wireKind field.type) ++ encodeElem field v fEnc
    else []

/-- Modelled from the spec: section 4.6, the extension blob and the
unrecognized blob, each written verbatim after the fields if present. -/
def encodeTrailer (ext : Extensions) (unrec : Option (List Nat)) : List Nat :=
  (match ext with
    | .nil => []
    | .bytes b => b
    | .map encoded => encoded.flatten)
  ++ (match unrec with
    | some b => b
    | none => [])

mutual
/-- Modelled from the spec: the paired encoder `Encode(m)` of a message, the
fields in declaration order followed by the extension and unrecognized bytes;
a value of a custom type is written as the bytes it marshals to. -/
def Val.Encode : Val → List Nat
  | .msg proto3 desc fields ext unrec =>
    encodeFields proto3 desc.fields fields ++ encodeTrailer ext unrec
  | .custom marshalled => marshalled
  | _ => []
/-- The encodings of the fields of a message, one after the other. -/
def encodeFields (proto3 : Bool) : List FieldDesc → List Val → List Nat
  | field :: fds, v :: vs =>
    encodeField proto3 field v (Val.Encode v) (elemEncodings v) ++ encodeFields proto3 fds vs
  | _, _ => []
/-- The encodings of the elements of a slice or of the values of a map. -/
def elemEncodings : Val → List (List Nat)
  | .list es => listEncodings es
  | .map kvs => valueEncodings kvs
  | _ => []
/-- The encodings along a slice. -/
def listEncodings : List Val → List (List Nat)
  | [] => []
  | e :: es => Val.Encode e :: listEncodings es
/-- The encodings of the values along the entries of a map. -/
def valueEncodings : List (Val × Val) → List (List Nat)
  | [] => []
  | (_, v) :: kvs => Val.Encode v :: valueEncodings kvs
end

/-- A value is a message. -/
def Val.isMsg : Val → Bool
  | .msg _ _ _ _ _ => true
  | _ => false

/-- A value is of a custom type. -/
def Val.isCustom : Val → Bool
  | .custom _ => true
  | _ => false

/-- One value of a field has the Go type of the field: a message for a nested
message field, a custom-typed value for a custom-typed bytes field, a scalar of
the field type otherwise. -/
def elemOK (field : FieldDesc) (e : Val) : Bool :=
  if field.type = FieldType.TYPE_MESSAGE then e.isMsg
  else if field.type = FieldType.TYPE_BYTES ∧ field.customtype = true then e.isCustom
  else hasType field.type e

/-- One entry of a map has the Go types of the map: a scalar key, and a value
that is a message (never nil, section 4.5) or a scalar of the value type. -/
def entryOK (m : MapDesc) (kv : Val × Val) : Bool :=
  hasType m.keyType kv.1
    && (if m.valueType = FieldType.TYPE_MESSAGE then kv.2.isMsg else hasType m.valueType kv.2)

/-- A singular field of this descriptor is a pointer, or a byte slice, and may
be nil: a nullable nested message, a nullable field of a proto2 file, or a
bytes field without custom type. -/
def nilAllowed (proto3 : Bool) (field : FieldDesc) : Bool :=
  ((!proto3 || decide (field.type = FieldType.TYPE_MESSAGE)) && field.nullable)
    || (decide (field.type = FieldType.TYPE_BYTES) && !field.customtype)

/-- A field descriptor of the supported matrix together with a value of the Go
type generated for it (section 3): a field number in the protobuf range, no
group, `packed` only on repeated numeric scalars, a custom type only on bytes;
a map field is a repeated message field with a scalar key and holds a map; a
repeated field holds a slice of values of its type; a singular field holds a
value of its type, or nil where a nil is representable. -/
def fieldOK (proto3 : Bool) (field : FieldDesc) (v : Val) : Bool :=
  decide (1 ≤ field.number ∧ field.number < 2 ^ 29)
    && decide (field.type ≠ FieldType.TYPE_GROUP)
    && (match field.map with
      | some m =>
        decide (field.type = FieldType.TYPE_MESSAGE) && field.repeated && !field.packed
          && isScalar m.keyType && decide (m.valueType ≠ FieldType.TYPE_GROUP)
          && (match v with
            | .map kvs => kvs.all (entryOK m)
            | _ => false)
      | none =>
        (!field.packed || (field.repeated && isNumeric field.type))
          && (!field.customtype || decide (field.type = FieldType.TYPE_BYTES))
          && (if field.repeated then
              (match v with
                | .list es => es.all (elemOK field)
                | _ => false)
            else (v.isNil && nilAllowed proto3 field) || (!v.isNil && elemOK field v)))

/-- The extension and unrecognized fields have the shape the descriptor gives
them: no `XXX_extensions` without extension ranges, a map with
`goproto_extensions_map` and a byte slice without, no `XXX_unrecognized` when
the descriptor has none. -/
def trailerOK (desc : MessageDesc) (ext : Extensions) (unrec : Option (List Nat)) : Bool :=
  (match ext with
    | .nil => true
    | .bytes _ => desc.hasExtension && !desc.extensionsMap
    | .map _ => desc.hasExtension && desc.extensionsMap)
  && (desc.hasUnrecognized || unrec.isNone)

mutual
/-- A valid value (section 6): a finite tree in which every message is of a
sizer-enabled message type that is not a map entry, has one value per declared
field, each of the Go type of its field, and well-shaped extension and
unrecognized fields. -/
def Val.valid : Val → Bool
  | .msg proto3 desc fields ext unrec =>
    desc.sizer && !desc.mapEntry && validFields proto3 desc.fields fields
      && trailerOK desc ext unrec
  | .list es => validList es
  | .map kvs => validEntries kvs
  | _ => true
/-- The fields of a message are valid, one value per descriptor. -/
def validFields (proto3 : Bool) : List FieldDesc → List Val → Bool
  | [], [] => true
  | field :: fds, v :: vs => fieldOK proto3 field v && Val.valid v && validFields proto3 fds vs
  | _, _ => false
/-- The elements of a slice are valid. -/
def validList : List Val → Bool
  | [] => true
  | e :: es => Val.valid e && validList es
/-- The values of the entries of a map are valid. -/
def validEntries : List (Val × Val) → Bool
  | [] => true
  | (_, v) :: kvs => Val.valid v && validEntries kvs
end

/-- The values of a field at which the printed statements add nothing although
the encoder of the specification writes the field: a singular non-nullable
field that is nil or, in a proto3 file, a scalar at a value the printed zero
test rejects; an empty packed field; and a nullable proto3 float holding
negative zero, which the printed test `m.f != 0` rejects although it is not
the zero value. -/
def fieldExcepted (proto3 : Bool) (field : FieldDesc) (v : Val) : Bool :=
  if field.repeated then field.packed && decide (v.len = 0)
  else if !field.nullable then v.isNil || (proto3 && !field.isNested && isZeroValue v)
  else proto3 && !field.isNested && isZeroValue v && !isDefault v

mutual
/-- No field of the value, at any depth, holds one of the values of
`fieldExcepted`. -/
def Val.regular : Val → Bool
  | .msg proto3 desc fields _ _ => regularFields proto3 desc.fields fields
  | .list es => regularList es
  | .map kvs => regularEntries kvs
  | _ => true
/-- The fields of a message are regular. -/
def regularFields (proto3 : Bool) : List FieldDesc → List Val → Bool
  | field :: fds, v :: vs =>
    !fieldExcepted proto3 field v && Val.regular v && regularFields proto3 fds vs
  | _, _ => true
/-- The elements of a slice are regular. -/
def regularList : List Val → Bool
  | [] => true
  | e :: es => Val.regular e && regularList es
/-- The values of the entries of a map are regular. -/
def regularEntries : List (Val × Val) → Bool
  | [] => true
  | (_, v) :: kvs => Val.regular v && regularEntries kvs
end

/-! ## Example descriptors -/

/-- A message `A` in the manner of `test/example/example.proto`: a non-nullable
string, a non-nullable int64 and a non-nullable custom-typed bytes field. -/
def exampleA : MessageDesc :=
  { fields := [
      { number := 1, type := .TYPE_STRING, repeated := false, packed := false,
        nullable := false, customtype := false, map := none },
      { number := 2, type := .TYPE_INT64, repeated := false, packed := false,
        nullable := false, customtype := false, map := none },
      { number := 3, type := .TYPE_BYTES, repeated := false, packed := false,
        nullable := false, customtype := true, map := none }],
    sizer := true, mapEntry := false, hasExtension := false, extensionsMap := false,
    hasUnrecognized := true }

/-- The message `B` of the package documentation (size.go lines 59-63): an
embedded non-nullable `A` as field 1 and a repeated custom-typed bytes field `G`
as field 2. -/
def exampleB : MessageDesc :=
  { fields := [
      { number := 1, type := .TYPE_MESSAGE, repeated := false, packed := false,
        nullable := false, customtype := false, map := none },
      { number := 2, type := .TYPE_BYTES, repeated := true, packed := false,
        nullable := false, customtype := true, map := none }],
    sizer := true, mapEntry := false, hasExtension := false, extensionsMap := false,
    hasUnrecognized := true }

/-- A value of `A`. -/
def exampleAValue : Val :=
  .msg false exampleA [.bytes [104, 105], .int (-1), .custom [1, 2, 3, 4]] .nil none

/-- The fields of a value of `B`. -/
def exampleBFields : List Val :=
  [exampleAValue, .list [.custom [7, 7], .custom []]]

/-- A proto2 file with the messages `A` and `B`. -/
def exampleFile : FileDesc := { proto3 := false, messages := [exampleA, exampleB] }

/-- A sizer-enabled message whose only field, a repeated string with number 1,
declares `packed`: a malformed descriptor in the sense of section 7. -/
def packedStringMessage : MessageDesc :=
  { fields := [
      { number := 1, type := .TYPE_STRING, repeated := true, packed := true,
        nullable := true, customtype := false, map := none }],
    sizer := true, mapEntry := false, hasExtension := false, extensionsMap := false,
    hasUnrecognized := false }

/-- A proto2 file with the message `packedStringMessage`. -/
def packedStringFile : FileDesc := { proto3 := false, messages := [packedStringMessage] }

/-- A sizer-enabled message with one field of the group type. -/
def groupMessage : MessageDesc :=
  { fields := [
      { number := 1, type := .TYPE_INT32, repeated := false, packed := false,
        nullable := true, customtype := false, map := none },
      { number := 2, type := .TYPE_GROUP, repeated := true, packed := false,
        nullable := true, customtype := false, map := none }],
    sizer := true, mapEntry := false, hasExtension := false, extensionsMap := false,
    hasUnrecognized := true }


/-- A sizer-enabled message of a proto3 file whose only field, an int32 with
number 1, is marked non-nullable. -/
def zeroScalarMessage : MessageDesc :=
  { fields := [
      { number := 1, type := .TYPE_INT32, repeated := false, packed := false,
        nullable := false, customtype := false, map := none }],
    sizer := true, mapEntry := false, hasExtension := false, extensionsMap := false,
    hasUnrecognized := false }


/-- A sizer-enabled message whose only field is a packed repeated int32 with
number 1. -/
def emptyPackedMessage : MessageDesc :=
  { fields := [
      { number := 1, type := .TYPE_INT32, repeated := true, packed := true,
        nullable := true, customtype := false, map := none }],
    sizer := true, mapEntry := false, hasExtension := false, extensionsMap := false,
    hasUnrecognized := false }

/-- A sizer-enabled message whose only field is a non-nullable bytes field
without custom type, number 1. -/
def nilBytesMessage : MessageDesc :=
  { fields := [
      { number := 1, type := .TYPE_BYTES, repeated := false, packed := false,
        nullable := false, customtype := false, map := none }],
    sizer := true, mapEntry := false, hasExtension := false, extensionsMap := false,
    hasUnrecognized := false }

/-- A sizer-enabled message whose only field is a nullable double with
number 1. -/
def negativeZeroMessage : MessageDesc :=
  { fields := [
      { number := 1, type := .TYPE_DOUBLE, repeated := false, packed := false,
        nullable := true, customtype := false, map := none }],
    sizer := true, mapEntry := false, hasExtension := false, extensionsMap := false,
    hasUnrecognized := false }

/-- A proto3 file with the four messages above. -/
def exceptedFile : FileDesc :=
  { proto3 := true,
    messages := [zeroScalarMessage, emptyPackedMessage, nilBytesMessage, negativeZeroMessage] }
/-! ## The varint size `sov` -/

theorem sovLoop_acc (x : Nat) : ∀ n, sovLoop x n = n + sovLoop x 0 := by
  induction x using Nat.strong_induction_on with
  | _ x ih =>
    intro n
    rw [sovLoop, sovLoop.eq_1 x 0]
    by_cases h : x >>> 7 = 0
    · simp [h]
    · have hlt : x >>> 7 < x := by
        simp only [Nat.shiftRight_eq_div_pow] at *
        omega
      simp only [h, if_false]
      rw [ih _ hlt (n + 1), ih _ hlt (0 + 1)]
      omega

theorem sov_step (x : Nat) : sov x = if x < 128 then 1 else sov (x / 128) + 1 := by
  unfold sov
  rw [sovLoop]
  have e : x >>> 7 = x / 128 := by simp [Nat.shiftRight_eq_div_pow]
  rw [e]
  by_cases h : x < 128
  · have : x / 128 = 0 := by omega
    simp [h, this]
  · have : x / 128 ≠ 0 := by omega
    simp only [this, h, if_false]
    rw [sovLoop_acc]
    omega

theorem sov_of_lt (x : Nat) (h : x < 128) : sov x = 1 := by
  rw [sov_step, if_pos h]

theorem sov_of_ge (x : Nat) (h : 128 ≤ x) : sov x = sov (x / 128) + 1 := by
  rw [sov_step, if_neg (by omega)]

theorem sov_pos (x : Nat) : 1 ≤ sov x := by
  rw [sov_step]; split <;> omega

theorem sov_le_iff (k : Nat) : ∀ x, sov x ≤ k + 1 ↔ x < 2 ^ (7 * (k + 1)) := by
  induction k with
  | zero =>
    intro x
    rw [sov_step]
    by_cases h : x < 128
    · simp [h]
    · have := sov_pos (x / 128)
      simp only [h, if_false]
      constructor
      · intro h'; omega
      · intro h'; simp at h'; omega
  | succ k ih =>
    intro x
    rw [sov_step]
    by_cases h : x < 128
    · simp only [h, if_true]
      constructor
      · intro _
        calc x < 2 ^ 7 := h
          _ ≤ 2 ^ (7 * (k + 1 + 1)) := Nat.pow_le_pow_right (by decide) (by omega)
      · intro _; omega
    · simp only [h, if_false]
      rw [Nat.add_le_add_iff_right, ih (x / 128)]
      have e : 2 ^ (7 * (k + 1 + 1)) = 2 ^ (7 * (k + 1)) * 128 := by
        rw [show 7 * (k + 1 + 1) = 7 * (k + 1) + 7 by ring, pow_add]; norm_num
      rw [e, Nat.div_lt_iff_lt_mul (by decide)]

theorem sov_eq_VarintLength (x : Nat) : sov x = VarintLength x := by
  unfold VarintLength
  apply le_antisymm
  · obtain ⟨k, hk⟩ : ∃ k, max 1 ((Nat.size x + 6) / 7) = k + 1 :=
      ⟨max 1 ((Nat.size x + 6) / 7) - 1, by omega⟩
    rw [hk, sov_le_iff, ← Nat.size_le]
    omega
  · obtain ⟨k, hk⟩ : ∃ k, sov x = k + 1 := ⟨sov x - 1, by have := sov_pos x; omega⟩
    have h := (sov_le_iff k x).1 (by omega)
    rw [← Nat.size_le] at h
    omega

theorem sov_0 : sov 0 = 1 := sov_of_lt 0 (by decide)

theorem sov_127 : sov 127 = 1 := sov_of_lt 127 (by decide)

theorem sov_128 : sov 128 = 2 := by
  rw [sov_of_ge 128 (by decide), sov_of_lt (128 / 128) (by decide)]

theorem sov_max : sov (2 ^ 64 - 1) = 10 := by
  simp [sov, sovLoop]

theorem varintBytes_length (x : Nat) : (varintBytes x).length = sov x := by
  induction x using Nat.strong_induction_on with
  | _ x ih =>
    rw [varintBytes, sov_step]
    by_cases h : x < 128
    · simp [h]
    · simp only [h, if_false, List.length_cons]
      rw [ih _ (by omega)]

/-- C2: for every unsigned 64-bit `x` the generated `sov` returns
`max(1, ceil(bit_length(x)/7))`; in particular `sov(0)=1`, `sov(127)=1`,
`sov(128)=2` and `sov(2^64-1)=10`. -/
theorem sov_spec (x : Nat) (_hx : x < 2 ^ 64) :
    sov x = max 1 ((Nat.size x + 6) / 7)
      ∧ sov 0 = 1 ∧ sov 127 = 1 ∧ sov 128 = 2 ∧ sov (2 ^ 64 - 1) = 10 :=
  ⟨sov_eq_VarintLength x, sov_0, sov_127, sov_128, sov_max⟩

theorem sov_spec_witness :
    300 < 2 ^ 64 ∧ (sov 300 = max 1 ((Nat.size 300 + 6) / 7)
      ∧ sov 0 = 1 ∧ sov 127 = 1 ∧ sov 128 = 2 ∧ sov (2 ^ 64 - 1) = 10) :=
  ⟨by decide, sov_spec 300 (by decide)⟩

theorem varintDecode_varintBytes (x : Nat) : varintDecode (varintBytes x) = x := by
  induction x using Nat.strong_induction_on with
  | _ x ih =>
    rw [varintBytes]
    by_cases h : x < 128
    · simp only [h, if_true, varintDecode, List.foldr]
      omega
    · simp only [h, if_false]
      have e := ih (x / 128) (by omega)
      unfold varintDecode at e ⊢
      rw [List.foldr_cons, e]
      omega

theorem varintBytes_shape (x : Nat) :
    ∃ init last, varintBytes x = init ++ [last] ∧ last < 128
      ∧ ∀ b ∈ init, 128 ≤ b ∧ b < 256 := by
  induction x using Nat.strong_induction_on with
  | _ x ih =>
    rw [varintBytes]
    by_cases h : x < 128
    · exact ⟨[], x, by simp [h], h, by simp⟩
    · obtain ⟨init, last, e, hl, hi⟩ := ih (x / 128) (by omega)
      refine ⟨(x % 128 + 128) :: init, last, by simp [h, e], hl, ?_⟩
      intro b hb
      rcases List.mem_cons.1 hb with hb | hb
      · subst hb; omega
      · exact hi b hb

/-- C3: for every unsigned 64-bit `x`, `sov x` is the length of the byte
sequence that encodes `x` as a little-endian base-128 varint; that sequence
decodes back to `x`, every byte of it except the last has the continuation bit
0x80 set, and the last one has it clear. -/
theorem sov_eq_varint_length (x : Nat) (_hx : x < 2 ^ 64) :
    sov x = (varintBytes x).length
      ∧ varintDecode (varintBytes x) = x
      ∧ ∃ init last, varintBytes x = init ++ [last] ∧ last < 128
          ∧ ∀ b ∈ init, 128 ≤ b ∧ b < 256 :=
  ⟨(varintBytes_length x).symm, varintDecode_varintBytes x, varintBytes_shape x⟩

theorem sov_eq_varint_length_witness :
    300 < 2 ^ 64 ∧ (sov 300 = (varintBytes 300).length
      ∧ varintDecode (varintBytes 300) = 300
      ∧ ∃ init last, varintBytes 300 = init ++ [last] ∧ last < 128
          ∧ ∀ b ∈ init, 128 ≤ b ∧ b < 256) :=
  ⟨by decide, sov_eq_varint_length 300 (by decide)⟩

/-! ## The zigzag size `soz` -/

theorem xor_allOnes (y : Nat) (hy : y < 2 ^ 64) : y ^^^ (2 ^ 64 - 1) = 2 ^ 64 - 1 - y := by
  apply Nat.eq_of_testBit_eq
  intro i
  have e : 2 ^ 64 - 1 - y = 2 ^ 64 - (y + 1) := by omega
  rw [e, Nat.testBit_xor, Nat.testBit_two_pow_sub_one, Nat.testBit_two_pow_sub_succ hy]
  by_cases hi : i < 64
  · simp [hi]
  · have : y.testBit i = false := by
      apply Nat.testBit_lt_two_pow
      calc y < 2 ^ 64 := hy
        _ ≤ 2 ^ i := Nat.pow_le_pow_right (by decide) (by omega)
    simp [hi, this]

theorem uint64_of_nonneg (x : Int) (h0 : 0 ≤ x) (h1 : x < 2 ^ 64) : uint64 x = x.toNat := by
  unfold uint64
  rw [Int.emod_eq_of_lt h0 h1]

theorem uint64_of_neg (x : Int) (h0 : x < 0) (h1 : -2 ^ 64 ≤ x) :
    uint64 x = (x + 2 ^ 64).toNat := by
  unfold uint64
  have : x % 2 ^ 64 = x + 2 ^ 64 := by
    rw [← Int.add_emod_self, Int.emod_eq_of_lt (by omega) (by omega)]
  rw [this]

theorem uint64_lt (x : Int) : uint64 x < 2 ^ 64 := by
  unfold uint64
  have h1 : x % 2 ^ 64 < 2 ^ 64 := Int.emod_lt_of_pos x (by norm_num)
  have h2 : 0 ≤ x % 2 ^ 64 := Int.emod_nonneg x (by norm_num)
  omega

theorem int64_of_lt (n : Nat) (hn : n < 2 ^ 63) : int64 n = n := by
  unfold int64
  have : n % 2 ^ 64 = n := Nat.mod_eq_of_lt (by omega)
  rw [this, if_pos hn]

theorem int64_of_ge (m : Nat) (hm1 : 2 ^ 63 ≤ m) (hm2 : m < 2 ^ 64) :
    int64 m = (m : Int) - 2 ^ 64 := by
  unfold int64
  have : m % 2 ^ 64 = m := Nat.mod_eq_of_lt hm2
  rw [this, if_neg (by omega)]

theorem shiftRight63_nonneg (x : Int) (h0 : 0 ≤ x) (h1 : x < 2 ^ 63) : x.shiftRight 63 = 0 := by
  rw [← Int.shiftRight_eq, Int.shiftRight_eq_div_pow]
  norm_num
  omega

theorem shiftRight63_neg (x : Int) (h0 : x < 0) (h1 : -2 ^ 63 ≤ x) : x.shiftRight 63 = -1 := by
  rw [← Int.shiftRight_eq, Int.shiftRight_eq_div_pow]
  norm_num
  omega

theorem uint64_zero : uint64 0 = 0 := by simp [uint64]

theorem uint64_neg_one : uint64 (-1) = 2 ^ 64 - 1 := by simp [uint64]

theorem soz_nonneg (n : Nat) (hn : n < 2 ^ 63) : soz n = sov (2 * n) := by
  unfold soz
  rw [int64_of_lt n hn, shiftRight63_nonneg _ (Int.ofNat_nonneg _) (by exact_mod_cast hn),
    uint64_zero, Nat.xor_zero, Nat.shiftLeft_eq]
  have e4 : n * 2 ^ 1 % 2 ^ 64 = 2 * n := by omega
  rw [e4, uint64_of_nonneg _ (Int.ofNat_nonneg _) (by push_cast; omega), Int.toNat_ofNat]

theorem soz_neg (m : Nat) (hm1 : 2 ^ 63 ≤ m) (hm2 : m < 2 ^ 64) :
    soz m = sov (2 ^ 65 - 1 - 2 * m) := by
  unfold soz
  rw [int64_of_ge m hm1 hm2, shiftRight63_neg _ (by omega) (by omega), uint64_neg_one,
    Nat.shiftLeft_eq]
  have hk : m * 2 ^ 1 % 2 ^ 64 = 2 * m - 2 ^ 64 := by omega
  rw [hk, xor_allOnes _ (by omega)]
  have hb : ((2 ^ 64 - 1 - (2 * m - 2 ^ 64) : Nat) : Int) < 2 ^ 64 := by
    have : (2 ^ 64 - 1 - (2 * m - 2 ^ 64) : Nat) < 2 ^ 64 := by omega
    exact_mod_cast this
  rw [uint64_of_nonneg _ (Int.ofNat_nonneg _) hb, Int.toNat_ofNat]
  have : 2 ^ 64 - 1 - (2 * m - 2 ^ 64) = 2 ^ 65 - 1 - 2 * m := by omega
  rw [this]

theorem soz_eq_sov_zigzag (x : Int) (hlo : -2 ^ 63 ≤ x) (hhi : x < 2 ^ 63) :
    soz (uint64 x) = sov (zigzag x) := by
  unfold zigzag
  by_cases h0 : 0 ≤ x
  · rw [uint64_of_nonneg x h0 (by omega), if_pos h0]
    have hn : x.toNat < 2 ^ 63 := by omega
    rw [soz_nonneg _ hn]
    have : 2 * x.toNat = (2 * x).toNat := by omega
    rw [this]
  · rw [uint64_of_neg x (by omega) (by omega), if_neg h0]
    rw [soz_neg _ (by omega) (by omega)]
    have : 2 ^ 65 - 1 - 2 * (x + 2 ^ 64).toNat = (-2 * x - 1).toNat := by omega
    rw [this]

theorem soz_eq_ZigZagLength (x : Int) (hlo : -2 ^ 63 ≤ x) (hhi : x < 2 ^ 63) :
    soz (uint64 x) = ZigZagLength x := by
  rw [soz_eq_sov_zigzag x hlo hhi, sov_eq_VarintLength, ZigZagLength]

theorem soz_value (x : Int) (z n : Nat) (hlo : -2 ^ 63 ≤ x) (hhi : x < 2 ^ 63)
    (hz : zigzag x = z) (hn : sov z = n) : soz (uint64 x) = n := by
  rw [soz_eq_sov_zigzag x hlo hhi, hz, hn]

/-- C4: for every signed 64-bit `x`, passed to the generated `soz` as its
two's-complement bit pattern `uint64(x)`, `soz` returns `sov(z)` where `z` is
the zigzag image of `x`: `z = 2x` for `x >= 0` and `z = -2x-1` for `x < 0`; in
particular `soz(0)=1`, `soz(-1)=1`, `soz(-64)=1` and `soz(64)=2`. -/
theorem soz_spec (x : Int) (hlo : -2 ^ 63 ≤ x) (hhi : x < 2 ^ 63) :
    soz (uint64 x) = sov (if 0 ≤ x then (2 * x).toNat else (-2 * x - 1).toNat)
      ∧ soz (uint64 x) = ZigZagLength x
      ∧ soz (uint64 0) = 1 ∧ soz (uint64 (-1)) = 1
      ∧ soz (uint64 (-64)) = 1 ∧ soz (uint64 64) = 2 := by
  refine ⟨soz_eq_sov_zigzag x hlo hhi, soz_eq_ZigZagLength x hlo hhi, ?_, ?_, ?_, ?_⟩
  · exact soz_value 0 0 1 (by decide) (by decide) (by decide) (sov_of_lt 0 (by decide))
  · exact soz_value (-1) 1 1 (by decide) (by decide) (by decide) (sov_of_lt 1 (by decide))
  · exact soz_value (-64) 127 1 (by decide) (by decide) (by decide) sov_127
  · exact soz_value 64 128 2 (by decide) (by decide) (by decide) sov_128

theorem soz_spec_witness :
    (-2 ^ 63 ≤ (-3 : Int)) ∧ ((-3 : Int) < 2 ^ 63)
      ∧ (soz (uint64 (-3))
            = sov (if 0 ≤ (-3 : Int) then (2 * (-3 : Int)).toNat
                else (-2 * (-3 : Int) - 1).toNat)
          ∧ soz (uint64 (-3)) = ZigZagLength (-3)
          ∧ soz (uint64 0) = 1 ∧ soz (uint64 (-1)) = 1
          ∧ soz (uint64 (-64)) = 1 ∧ soz (uint64 64) = 2) :=
  ⟨by decide, by decide, soz_spec (-3) (by decide) (by decide)⟩

/-! ## The tag size `keySize` -/

theorem keySizeLoop_eq (x : Nat) : ∀ s, keySizeLoop x s = s + sov x := by
  induction x using Nat.strong_induction_on with
  | _ x ih =>
    intro s
    rw [keySizeLoop]
    by_cases h : x > 127
    · have e : x >>> 7 = x / 128 := by simp [Nat.shiftRight_eq_div_pow]
      rw [if_pos h, e, ih _ (by omega), sov_of_ge x (by omega)]
      omega
    · rw [if_neg h, sov_of_lt x (by omega)]

theorem tagValue_eq (f w : Nat) (hw : w < 8) : tagValue f w = f * 8 + w := by
  unfold tagValue
  rw [Nat.shiftLeft_eq]
  have := Nat.mul_add_lt_is_or (show w < 2 ^ 3 from hw) f
  rw [show f * 2 ^ 3 = 2 ^ 3 * f by ring, ← this]
  omega

theorem uint32_of_nonneg (x : Int) (h0 : 0 ≤ x) (h1 : x < 2 ^ 32) : uint32 x = x.toNat := by
  unfold uint32
  rw [Int.emod_eq_of_lt h0 h1]

theorem keySize_eq_sov (f w : Int) (hf0 : 0 ≤ f) (hf : f < 2 ^ 29) (hw0 : 0 ≤ w) (hw : w < 8) :
    keySize f w = sov (tagValue f.toNat w.toNat) := by
  unfold keySize
  rw [keySizeLoop_eq, uint32_of_nonneg f hf0 (by omega), uint32_of_nonneg w hw0 (by omega),
    Nat.shiftLeft_eq]
  have e : f.toNat * 2 ^ 3 % 2 ^ 32 = f.toNat <<< 3 := by
    rw [Nat.shiftLeft_eq]
    omega
  rw [e, Nat.zero_add, tagValue]

theorem keySize_eq_TagLength (f w : Int) (hf0 : 0 ≤ f) (hf : f < 2 ^ 29) (hw0 : 0 ≤ w)
    (hw : w < 8) : keySize f w = TagLength f.toNat w.toNat := by
  rw [keySize_eq_sov f w hf0 hf hw0 hw, sov_eq_VarintLength, TagLength]

/-- C5, as stated, fails: for the positive int32 field number `2^29` and wire
kind 0 the 32-bit shift in `keySize` drops the top bit, so `keySize` returns 1,
while the untruncated tag `2^29 * 8 + 0 = 2^32` has `VarintLength` 5. -/
theorem keySize_truncates :
    (0 : Int) < 2 ^ 29 ∧ (2 ^ 29 : Int) < 2 ^ 31
      ∧ tagValue (2 ^ 29) 0 = 2 ^ 29 * 8 + 0
      ∧ keySize (2 ^ 29) 0 = 1
      ∧ VarintLength (tagValue (2 ^ 29) 0) = 5
      ∧ keySize (2 ^ 29) 0 ≠ VarintLength (tagValue (2 ^ 29) 0) := by
  have h1 : keySize (2 ^ 29) 0 = 1 := by
    simp [keySize, keySizeLoop, uint32]
  have h2 : VarintLength (tagValue (2 ^ 29) 0) = 5 := by
    rw [← sov_eq_VarintLength]
    simp [tagValue, sov, sovLoop]
  refine ⟨by decide, by decide, by simp [tagValue], h1, h2, ?_⟩
  rw [h1, h2]
  decide

/-- C5, amended: for every field number `1 <= fieldNumber < 2^29` (the range of
protobuf field numbers) and every wire kind in {0, 1, 2, 5},
`keySize(fieldNumber, wireKind)` equals `VarintLength((fieldNumber << 3) |
wireKind)`, and that tag value is the integer `fieldNumber*8 + wireKind`. -/
theorem keySize_spec (fieldNumber wireKind : Int) (h1 : 0 < fieldNumber)
    (h2 : fieldNumber < 2 ^ 29)
    (hw : wireKind = 0 ∨ wireKind = 1 ∨ wireKind = 2 ∨ wireKind = 5) :
    keySize fieldNumber wireKind = VarintLength (tagValue fieldNumber.toNat wireKind.toNat)
      ∧ tagValue fieldNumber.toNat wireKind.toNat
          = fieldNumber.toNat * 8 + wireKind.toNat := by
  have hw0 : 0 ≤ wireKind := by omega
  have hw8 : wireKind < 8 := by omega
  refine ⟨?_, tagValue_eq _ _ (by omega)⟩
  rw [keySize_eq_TagLength fieldNumber wireKind (by omega) h2 hw0 hw8, TagLength]

theorem keySize_spec_witness :
    (0 : Int) < 5 ∧ (5 : Int) < 2 ^ 29
      ∧ (keySize 5 0 = VarintLength (tagValue (5 : Int).toNat (0 : Int).toNat)
        ∧ tagValue (5 : Int).toNat (0 : Int).toNat
            = (5 : Int).toNat * 8 + (0 : Int).toNat) :=
  ⟨by decide, by decide, keySize_spec 5 0 (by decide) (by decide) (Or.inl rfl)⟩

/-! ## Singular fields -/

theorem wireToType_GoTypeWire (t : FieldType) : wireToType (GoTypeWire t) = wireKind t := by
  cases t <;> rfl

/-- C6: for every singular scalar field of a proto3 file (fixed-width,
varint-family, sint, bool, string, non-custom bytes) the generated `Size` adds 0
when the field holds the zero value of its type and adds exactly tag + payload
when it holds any other value. -/
theorem proto3_singular_scalar (field : FieldDesc) (v : Val)
    (hrep : field.repeated = false) (hpacked : field.packed = false)
    (hscalar : isScalar field.type = true)
    (hcustom : field.type = FieldType.TYPE_BYTES → field.customtype = false)
    (hv : hasType field.type v = true) :
    (isZeroValue v = true → fieldSize true field v = 0)
      ∧ (isZeroValue v = false →
          fieldSize true field v
            = keySize field.number (wireKind field.type) + payloadSize field.type v) := by
  obtain ⟨number, type, repeated, packed, nullable, customtype, map⟩ := field
  simp only at hrep hpacked hscalar hcustom hv
  subst hrep hpacked
  cases type <;> simp [isScalar] at hscalar <;> cases v <;> simp [hasType] at hv <;>
    (try have hc := hcustom rfl) <;> (try subst hc) <;>
    refine ⟨fun hz => ?_, fun hz => ?_⟩ <;>
    simp [isZeroValue] at hz <;>
    simp [fieldSize, sizeField, FieldDesc.IsMessage, payloadSize, Val.isNil,
      Val.neZero, Val.len, Val.u64, Val.isTrue, wireToType_GoTypeWire, sov_eq_VarintLength, hz]
  all_goals first
    | omega
    | exact soz_eq_ZigZagLength _ (by omega) (by omega)
    | (rw [if_pos (List.length_pos.2 hz)]; omega)

theorem proto3_singular_scalar_witness :
    (⟨1, FieldType.TYPE_SINT32, false, false, true, false, none⟩ : FieldDesc).repeated = false
      ∧ ((isZeroValue (Val.int (-3)) = true →
            fieldSize true ⟨1, FieldType.TYPE_SINT32, false, false, true, false, none⟩
              (Val.int (-3)) = 0)
        ∧ (isZeroValue (Val.int (-3)) = false →
            fieldSize true ⟨1, FieldType.TYPE_SINT32, false, false, true, false, none⟩
                (Val.int (-3))
              = keySize 1 (wireKind FieldType.TYPE_SINT32)
                + payloadSize FieldType.TYPE_SINT32 (Val.int (-3)))) :=
  ⟨rfl, proto3_singular_scalar ⟨1, FieldType.TYPE_SINT32, false, false, true, false, none⟩
    (Val.int (-3)) rfl rfl rfl (by decide) (by decide)⟩


theorem keySize_5_0 : keySize 5 0 = 1 := by
  simp [keySize, keySizeLoop, uint32]

theorem sov_300 : sov 300 = 2 := by
  simp [sov, sovLoop]

theorem listSizes_eq (es : List Val) : listSizes es = es.map Val.Size := by
  induction es with
  | nil => simp [listSizes]
  | cons e es ih => simp [listSizes, ih]

theorem valueSizes_eq (kvs : List (Val × Val)) :
    valueSizes kvs = kvs.map (fun kv => kv.2.Size) := by
  induction kvs with
  | nil => simp [valueSizes]
  | cons kv kvs ih =>
    obtain ⟨k, v⟩ := kv
    simp [valueSizes, ih]

theorem zip_map_self {α β γ : Type} (f : α × β → γ) (g : α → β) (xs : List α) :
    (xs.zip (xs.map g)).map f = xs.map (fun x => f (x, g x)) := by
  induction xs with
  | nil => simp
  | cons x xs ih => simp [ih]

theorem sum_map_congr {α : Type} (f g : α → Nat) (xs : List α) (h : ∀ x ∈ xs, f x = g x) :
    (xs.map f).sum = (xs.map g).sum := by
  rw [List.map_congr_left h]

theorem sum_map_const {α : Type} (c : Nat) (xs : List α) :
    (xs.map (fun _ => c)).sum = xs.length * c := by
  induction xs with
  | nil => simp
  | cons x xs ih => simp [ih]; ring

/-- C8: for every unpacked repeated varint-family field (int32, int64, uint32,
uint64, enum) the generated `Size` adds the sum over the elements `e` of
`t + VarintLength(e)`, with `t` the tag length for wire kind 0; for field
number 5 of type int32 with values `[1, 300]` this is `(1+1) + (1+2) = 5`. -/
theorem unpacked_varint_field (proto3 : Bool) (field : FieldDesc) (es : List Int)
    (hrep : field.repeated = true) (hpacked : field.packed = false)
    (ht : field.type = FieldType.TYPE_INT32 ∨ field.type = FieldType.TYPE_INT64
      ∨ field.type = FieldType.TYPE_UINT32 ∨ field.type = FieldType.TYPE_UINT64
      ∨ field.type = FieldType.TYPE_ENUM) (hne : es ≠ []) :
    fieldSize proto3 field (Val.list (es.map Val.int))
        = (es.map (fun e => keySize field.number 0 + VarintLength (uint64 e))).sum
      ∧ fieldSize false ⟨5, FieldType.TYPE_INT32, true, false, true, false, none⟩
          (Val.list [Val.int 1, Val.int 300]) = (1 + 1) + (1 + 2) := by
  constructor
  · obtain ⟨number, type, repeated, packed, nullable, customtype, map⟩ := field
    simp only at hrep hpacked ht
    subst hrep hpacked
    have hlen : 0 < es.length := List.length_pos.2 hne
    rcases ht with h | h | h | h | h <;> subst h <;>
      simp [fieldSize, sizeField, Val.len, Val.elems, hlen, Val.u64, wireToType_GoTypeWire,
        wireKind, sov_eq_VarintLength, Function.comp_def]
  · simp [fieldSize, sizeField, Val.len, Val.elems, Val.u64, wireToType_GoTypeWire,
      wireKind, keySize_5_0, uint64_of_nonneg, sov_300, sov_of_lt]

theorem unpacked_varint_field_witness :
    (⟨5, FieldType.TYPE_INT64, true, false, true, false, none⟩ : FieldDesc).repeated = true
      ∧ (fieldSize true ⟨5, FieldType.TYPE_INT64, true, false, true, false, none⟩
            (Val.list ([-1, 7].map Val.int))
          = (([-1, 7] : List Int).map
              (fun e => keySize 5 0 + VarintLength (uint64 e))).sum
        ∧ fieldSize false ⟨5, FieldType.TYPE_INT32, true, false, true, false, none⟩
            (Val.list [Val.int 1, Val.int 300]) = (1 + 1) + (1 + 2)) :=
  ⟨rfl, unpacked_varint_field true
    ⟨5, FieldType.TYPE_INT64, true, false, true, false, none⟩ [-1, 7] rfl rfl
    (Or.inr (Or.inl rfl)) (by decide)⟩

theorem payload_varint (t : FieldType) (e : Val) (h : hasType t e = true)
    (ht : t = FieldType.TYPE_INT32 ∨ t = FieldType.TYPE_INT64 ∨ t = FieldType.TYPE_UINT32
      ∨ t = FieldType.TYPE_UINT64 ∨ t = FieldType.TYPE_ENUM) :
    sov e.u64 = payloadSize t e := by
  rcases ht with h' | h' | h' | h' | h' <;> subst h' <;> cases e <;>
    simp [hasType] at h <;> simp [Val.u64, payloadSize, sov_eq_VarintLength]

theorem payload_sint (t : FieldType) (e : Val) (h : hasType t e = true)
    (ht : t = FieldType.TYPE_SINT32 ∨ t = FieldType.TYPE_SINT64) :
    soz e.u64 = payloadSize t e := by
  rcases ht with h' | h' <;> subst h' <;> cases e <;>
    simp [hasType] at h <;> simp only [Val.u64, payloadSize] <;>
    exact soz_eq_ZigZagLength _ (by omega) (by omega)

theorem payload_bytes (t : FieldType) (e : Val)
    (ht : t = FieldType.TYPE_STRING ∨ t = FieldType.TYPE_BYTES) :
    e.len + sov e.len = payloadSize t e := by
  rcases ht with h' | h' <;> subst h' <;>
    simp [payloadSize, sov_eq_VarintLength, Nat.add_comm]

/-- C9: for every packed repeated numeric field with a non-empty list of
elements the generated `Size` adds `tag + VarintLength(payload_len) +
payload_len`, the tag computed with the length-delimited wire kind 2, and
`payload_len` being `count*8` for the fixed 64-bit family, `count*4` for the
fixed 32-bit family, `count` for bool, the sum of `VarintLength(e)` for the
varint family and the sum of `ZigZagLength(e)` for sint32 and sint64. -/
theorem packed_field_size (proto3 : Bool) (field : FieldDesc) (es : List Val)
    (hrep : field.repeated = true) (hpacked : field.packed = true)
    (hnum : isNumeric field.type = true) (hne : es ≠ [])
    (hty : ∀ e ∈ es, hasType field.type e = true) :
    fieldSize proto3 field (Val.list es)
      = keySize field.number 2 + VarintLength (packedPayloadLen field.type es)
        + packedPayloadLen field.type es := by
  obtain ⟨number, type, repeated, packed, nullable, customtype, map⟩ := field
  simp only at hrep hpacked hnum hty
  subst hrep hpacked
  have hlen : 0 < es.length := List.length_pos.2 hne
  have hv : ∀ t, (t = FieldType.TYPE_INT32 ∨ t = FieldType.TYPE_INT64
      ∨ t = FieldType.TYPE_UINT32 ∨ t = FieldType.TYPE_UINT64 ∨ t = FieldType.TYPE_ENUM) →
      (∀ e ∈ es, hasType t e = true) →
      (es.map (fun e => sov e.u64)).sum = (es.map (payloadSize t)).sum :=
    fun t ht h => sum_map_congr _ _ es (fun e he => payload_varint t e (h e he) ht)
  have hz : ∀ t, (t = FieldType.TYPE_SINT32 ∨ t = FieldType.TYPE_SINT64) →
      (∀ e ∈ es, hasType t e = true) →
      (es.map (fun e => soz e.u64)).sum = (es.map (payloadSize t)).sum :=
    fun t ht h => sum_map_congr _ _ es (fun e he => payload_sint t e (h e he) ht)
  cases type <;> simp [isNumeric] at hnum <;>
    simp [fieldSize, sizeField, Val.len, Val.elems, hlen, WireBytes, packedPayloadLen] <;>
    (try rw [hv _ (by simp) hty]) <;> (try rw [hz _ (by simp) hty]) <;>
    simp [sov_eq_VarintLength]

theorem packed_field_size_witness :
    (⟨4, FieldType.TYPE_SINT32, true, true, true, false, none⟩ : FieldDesc).packed = true
      ∧ fieldSize false ⟨4, FieldType.TYPE_SINT32, true, true, true, false, none⟩
          (Val.list [Val.int (-1), Val.int 64])
        = keySize 4 2
          + VarintLength (packedPayloadLen FieldType.TYPE_SINT32 [Val.int (-1), Val.int 64])
          + packedPayloadLen FieldType.TYPE_SINT32 [Val.int (-1), Val.int 64] :=
  ⟨rfl, packed_field_size false ⟨4, FieldType.TYPE_SINT32, true, true, true, false, none⟩
    [Val.int (-1), Val.int 64] rfl rfl rfl (by simp) (by simp [hasType])⟩

/-! ## Map fields -/

theorem mapKeySum_eq (t : FieldType) (k : Val) (hs : isScalar t = true)
    (h : hasType t k = true) : mapKeySum t k = payloadSize t k := by
  cases t <;> simp [isScalar] at hs <;> simp only [mapKeySum] <;>
    first
      | rfl
      | exact payload_varint _ k h (by simp)
      | exact payload_sint _ k h (by simp)
      | exact payload_bytes _ k (by simp)

theorem mapValueSum_scalar (t : FieldType) (v : Val) (l : Nat) (hs : isScalar t = true)
    (h : hasType t v = true) : mapValueSum t v l = payloadSize t v := by
  cases t <;> simp [isScalar] at hs <;> simp only [mapValueSum] <;>
    first
      | rfl
      | exact payload_varint _ v h (by simp)
      | exact payload_sint _ v h (by simp)
      | exact payload_bytes _ v (by simp)

theorem sizeField_singular (proto3 : Bool) (field : FieldDesc) (v : Val) (fSize : Nat)
    (eSizes : List Nat)
    (hrep : field.repeated = false) (hpacked : field.packed = false)
    (hmap : field.map = none) (hgroup : field.type ≠ FieldType.TYPE_GROUP)
    (hcustom : field.customtype = true → field.type = FieldType.TYPE_BYTES)
    (hv : (v.isNil = true ∧ nilAllowed proto3 field = true)
      ∨ (v.isNil = false ∧ elemOK field v = true)) :
    sizeField proto3 field v fSize eSizes
      = if isSized proto3 field v = true then
          keySize field.number (wireKind field.type)
            + (if field.isNested = true then nestedPayload fSize
                else payloadSize field.type v)
        else 0 := by
  obtain ⟨number, type, repeated, packed, nullable, customtype, map⟩ := field
  simp only at hrep hpacked hmap hgroup hcustom hv
  subst hrep hpacked hmap
  rcases hv with ⟨hn, ha⟩ | ⟨hn, he⟩
  · cases v <;> simp [Val.isNil] at hn
    cases proto3 <;> cases customtype <;> cases nullable <;> cases type <;>
      simp [nilAllowed] at ha hcustom hgroup <;>
      simp [sizeField, FieldDesc.IsMessage, Val.isNil, isSized, Val.len]
  · cases proto3 <;> cases customtype <;> cases type <;>
      simp [elemOK] at he hcustom hgroup <;>
      cases v <;> simp [hasType, Val.isMsg, Val.isCustom, Val.isNil] at he hn <;>
      simp [sizeField, FieldDesc.IsMessage, FieldDesc.isNested, payloadSize, Val.isNil,
        Val.neZero, Val.len, Val.u64, Val.isTrue, wireToType_GoTypeWire, sov_eq_VarintLength,
        nestedPayload, isSized, isZeroValue]
    all_goals first
      | omega
      | rw [soz_eq_ZigZagLength _ (by omega) (by omega)]
      | (split_ifs <;> omega)
      | (cases ‹List Nat› <;> simp <;> omega)

theorem wireKind_bounds (t : FieldType) : 0 ≤ wireKind t ∧ wireKind t < 8 := by
  cases t <;> simp [wireKind]

theorem length_tagBytes (n w : Int) (h1 : 1 ≤ n) (h2 : n < 2 ^ 29) (hw0 : 0 ≤ w)
    (hw : w < 8) : (tagBytes n w).length = keySize n w := by
  rw [tagBytes, varintBytes_length, keySize_eq_sov n w (by omega) h2 hw0 hw]

theorem length_tagBytes_kind (n : Int) (t : FieldType) (h1 : 1 ≤ n) (h2 : n < 2 ^ 29) :
    (tagBytes n (wireKind t)).length = keySize n (wireKind t) :=
  length_tagBytes n _ h1 h2 (wireKind_bounds t).1 (wireKind_bounds t).2

theorem length_lengthDelimited (p : List Nat) :
    (lengthDelimited p).length = nestedPayload p.length := by
  simp [lengthDelimited, varintBytes_length, nestedPayload, sov_eq_VarintLength, Nat.add_comm]

theorem length_fixedBytes (w x : Nat) : (fixedBytes w x).length = w := by
  simp [fixedBytes]

theorem length_encodeScalar (t : FieldType) (v : Val) (h : hasType t v = true) :
    (encodeScalar t v).length = payloadSize t v := by
  cases t <;> cases v <;> simp [hasType] at h <;>
    simp [encodeScalar, payloadSize, length_fixedBytes, varintBytes_length,
      sov_eq_VarintLength, Val.toInt, ZigZagLength, length_lengthDelimited, Val.data, Val.len,
      nestedPayload, Nat.add_comm]

theorem elemOK_scalar (field : FieldDesc) (e : Val) (hn : field.isNested = false)
    (h : elemOK field e = true) : hasType field.type e = true := by
  unfold FieldDesc.isNested at hn
  unfold elemOK at h
  simp at hn
  by_cases h1 : field.type = FieldType.TYPE_MESSAGE
  · exact absurd h1 hn.1
  · rw [if_neg h1] at h
    by_cases h2 : field.type = FieldType.TYPE_BYTES ∧ field.customtype = true
    · have := hn.2 h2.1
      rw [h2.2] at this
      cases this
    · rw [if_neg h2] at h
      exact h

theorem length_encodeElem (field : FieldDesc) (e : Val) (nested : List Nat)
    (h : elemOK field e = true) :
    (encodeElem field e nested).length
      = if field.isNested = true then nestedPayload nested.length
        else payloadSize field.type e := by
  unfold encodeElem
  by_cases hn : field.isNested = true
  · rw [if_pos hn, if_pos hn, length_lengthDelimited]
  · rw [if_neg hn, if_neg hn]
    exact length_encodeScalar _ _ (elemOK_scalar field e (by simpa using hn) h)

theorem isWritten_elemOK (proto3 : Bool) (field : FieldDesc) (v : Val)
    (h : isWritten proto3 field v = true)
    (hv : (v.isNil = true ∧ nilAllowed proto3 field = true)
      ∨ (v.isNil = false ∧ elemOK field v = true)) : elemOK field v = true := by
  rcases hv with ⟨hn, ha⟩ | ⟨_, he⟩
  · obtain ⟨number, type, repeated, packed, nullable, customtype, map⟩ := field
    cases v <;> simp [Val.isNil] at hn
    cases nullable <;> simp [isWritten, Val.isNil] at h
    cases customtype <;> cases type <;> simp [nilAllowed] at ha <;>
      simp [elemOK, hasType]
  · exact he

theorem isDefault_isZeroValue (v : Val) (h : isDefault v = true) : isZeroValue v = true := by
  cases v <;> simp [isDefault] at h <;> simp [isZeroValue, h]

theorem isSized_eq_isWritten (proto3 : Bool) (field : FieldDesc) (v : Val)
    (hrep : field.repeated = false) (hex : fieldExcepted proto3 field v = false) :
    isSized proto3 field v = isWritten proto3 field v := by
  unfold fieldExcepted at hex
  rw [hrep] at hex
  simp only [Bool.false_eq_true, if_false] at hex
  unfold isSized isWritten
  by_cases hnull : field.nullable = true
  · simp only [hnull, Bool.not_true, Bool.false_eq_true, if_false] at hex ⊢
    by_cases hd : isDefault v = true
    · rw [hd, isDefault_isZeroValue v hd]
    · have hd' : isDefault v = false := by simpa using hd
      rw [hd'] at hex ⊢
      cases hz : isZeroValue v
      · rfl
      · rw [hz] at hex
        cases hp : proto3 <;> cases hn : field.isNested <;> simp [hp, hn] at hex ⊢
  · have hnull' : field.nullable = false := by simpa using hnull
    simp only [hnull', Bool.not_false, if_true] at hex ⊢
    simp only [Bool.or_eq_false_iff] at hex
    rw [hex.1, hex.2]
    rfl

theorem length_encodeField_singular (proto3 : Bool) (field : FieldDesc) (v : Val)
    (fEnc : List Nat) (eEncs : List (List Nat))
    (hrep : field.repeated = false) (hmap : field.map = none)
    (h1 : 1 ≤ field.number) (h2 : field.number < 2 ^ 29)
    (hv : (v.isNil = true ∧ nilAllowed proto3 field = true)
      ∨ (v.isNil = false ∧ elemOK field v = true)) :
    (encodeField proto3 field v fEnc eEncs).length
      = if isWritten proto3 field v = true then
          keySize field.number (wireKind field.type)
            + (if field.isNested = true then nestedPayload fEnc.length
                else payloadSize field.type v)
        else 0 := by
  unfold encodeField
  simp only [hmap, hrep, Bool.false_eq_true, if_false]
  by_cases hw : isWritten proto3 field v = true
  · have he : elemOK field v = true := isWritten_elemOK proto3 field v hw hv
    rw [if_pos hw, if_pos hw, List.length_append, length_tagBytes_kind _ _ h1 h2,
      length_encodeElem _ _ _ he]
  · simp [hw]

theorem sum_flatten_map {α : Type} (f : α → List Nat) (xs : List α) :
    ((xs.map f).flatten).length = (xs.map (fun x => (f x).length)).sum := by
  rw [List.length_flatten, List.map_map]
  rfl

theorem sizeField_repeated_scalar (proto3 : Bool) (field : FieldDesc) (es : List Val)
    (fSize : Nat) (eSizes : List Nat)
    (hrep : field.repeated = true) (hpacked : field.packed = false)
    (hmap : field.map = none) (hgroup : field.type ≠ FieldType.TYPE_GROUP)
    (hn : field.isNested = false)
    (hty : ∀ e ∈ es, hasType field.type e = true) :
    sizeField proto3 field (Val.list es) fSize eSizes
      = (es.map (fun e =>
          keySize field.number (wireKind field.type) + payloadSize field.type e)).sum := by
  obtain ⟨number, type, repeated, packed, nullable, customtype, map⟩ := field
  simp only at hrep hpacked hmap hgroup hty
  subst hrep hpacked hmap
  cases es with
  | nil => simp [sizeField, Val.len]
  | cons e0 es0 =>
    have hv : ∀ t, (t = FieldType.TYPE_INT32 ∨ t = FieldType.TYPE_INT64
        ∨ t = FieldType.TYPE_UINT32 ∨ t = FieldType.TYPE_UINT64 ∨ t = FieldType.TYPE_ENUM) →
        (∀ e ∈ e0 :: es0, hasType t e = true) → ∀ k : Nat,
        ((e0 :: es0).map (fun e => k + sov e.u64)).sum
          = ((e0 :: es0).map (fun e => k + payloadSize t e)).sum :=
      fun t ht h k => sum_map_congr _ _ _ (fun e he => by rw [payload_varint t e (h e he) ht])
    have hz : ∀ t, (t = FieldType.TYPE_SINT32 ∨ t = FieldType.TYPE_SINT64) →
        (∀ e ∈ e0 :: es0, hasType t e = true) → ∀ k : Nat,
        ((e0 :: es0).map (fun e => k + soz e.u64)).sum
          = ((e0 :: es0).map (fun e => k + payloadSize t e)).sum :=
      fun t ht h k => sum_map_congr _ _ _ (fun e he => by rw [payload_sint t e (h e he) ht])
    have hb : ∀ t, (t = FieldType.TYPE_STRING ∨ t = FieldType.TYPE_BYTES) → ∀ k : Nat,
        ((e0 :: es0).map (fun e => k + e.len + sov e.len)).sum
          = ((e0 :: es0).map (fun e => k + payloadSize t e)).sum :=
      fun t ht k => sum_map_congr _ _ _ (fun e _ => by
        rw [← payload_bytes t e ht, Nat.add_assoc])
    have hc : ∀ (t : FieldType) (c k : Nat), (∀ e : Val, payloadSize t e = c) →
        (k + c) * (e0 :: es0).length
          = ((e0 :: es0).map (fun e => k + payloadSize t e)).sum := by
      intro t c k h
      rw [sum_map_congr _ (fun _ => k + c) _ (fun e _ => by rw [h e]), sum_map_const]
      ring
    cases customtype <;> cases type <;> simp [FieldDesc.isNested] at hn hgroup <;>
      simp only [sizeField, Val.len, Val.elems, wireToType_GoTypeWire, List.length_cons,
        Nat.succ_pos, decide_True, Bool.not_true, Bool.and_false, Bool.false_and,
        Bool.not_false, Bool.true_and, if_false, Bool.false_eq_true, if_true, gt_iff_lt,
        Nat.zero_lt_succ, Bool.and_true, Bool.and_self] <;>
      first
        | exact hv _ (by simp) hty _
        | exact hz _ (by simp) hty _
        | exact hb _ (by simp) _
        | exact hc _ _ _ (fun _ => rfl)


theorem length_encodeField_repeated_scalar (proto3 : Bool) (field : FieldDesc) (es : List Val)
    (fEnc : List Nat) (eEncs : List (List Nat))
    (hrep : field.repeated = true) (hpacked : field.packed = false)
    (hmap : field.map = none) (hn : field.isNested = false)
    (h1 : 1 ≤ field.number) (h2 : field.number < 2 ^ 29)
    (hty : ∀ e ∈ es, hasType field.type e = true) :
    (encodeField proto3 field (Val.list es) fEnc eEncs).length
      = (es.map (fun e =>
          keySize field.number (wireKind field.type) + payloadSize field.type e)).sum := by
  unfold encodeField
  simp only [hmap, hrep, hpacked, hn, if_true, Bool.false_eq_true, if_false, Val.elems]
  rw [sum_flatten_map]
  apply sum_map_congr
  intro e he
  rw [List.length_append, length_tagBytes_kind _ _ h1 h2, length_encodeScalar _ _ (hty e he)]

theorem sizeField_repeated_nested (proto3 : Bool) (field : FieldDesc) (es : List Val)
    (fSize : Nat) (eSizes : List Nat)
    (hrep : field.repeated = true) (hpacked : field.packed = false)
    (hmap : field.map = none) (hn : field.isNested = true)
    (hcustom : field.customtype = true → field.type = FieldType.TYPE_BYTES)
    (hlen : eSizes.length = es.length) :
    sizeField proto3 field (Val.list es) fSize eSizes
      = (eSizes.map (fun l =>
          keySize field.number (wireKind field.type) + nestedPayload l)).sum := by
  obtain ⟨number, type, repeated, packed, nullable, customtype, map⟩ := field
  simp only at hrep hpacked hmap hcustom
  subst hrep hpacked hmap
  cases es with
  | nil =>
    have : eSizes = [] := List.length_eq_zero.1 (by simpa using hlen)
    subst this
    simp [sizeField, Val.len]
  | cons e0 es0 =>
    have hs : ∀ k : Nat, (eSizes.map (fun l => k + l + sov l)).sum
        = (eSizes.map (fun l => k + nestedPayload l)).sum :=
      fun k => sum_map_congr _ _ _ (fun l _ => by
        rw [nestedPayload, sov_eq_VarintLength, Nat.add_assoc])
    cases customtype <;> cases type <;> simp [FieldDesc.isNested] at hn hcustom <;>
      simp only [sizeField, Val.len, wireToType_GoTypeWire, List.length_cons,
        Nat.succ_pos, decide_True, Bool.not_true, Bool.and_false, Bool.false_and,
        Bool.not_false, Bool.true_and, if_false, Bool.false_eq_true, if_true, gt_iff_lt,
        Nat.zero_lt_succ, Bool.and_true, Bool.and_self] <;>
      exact hs _

theorem length_encodeField_repeated_nested (proto3 : Bool) (field : FieldDesc) (es : List Val)
    (fEnc : List Nat) (eEncs : List (List Nat))
    (hrep : field.repeated = true) (hpacked : field.packed = false)
    (hmap : field.map = none) (hn : field.isNested = true)
    (h1 : 1 ≤ field.number) (h2 : field.number < 2 ^ 29) :
    (encodeField proto3 field (Val.list es) fEnc eEncs).length
      = ((eEncs.map List.length).map (fun l =>
          keySize field.number (wireKind field.type) + nestedPayload l)).sum := by
  unfold encodeField
  simp only [hmap, hrep, hpacked, hn, if_true, Bool.false_eq_true, if_false]
  rw [sum_flatten_map, List.map_map]
  apply sum_map_congr
  intro e _
  simp only [Function.comp]
  rw [List.length_append, length_tagBytes_kind _ _ h1 h2, length_lengthDelimited]

theorem sizeField_packed (proto3 : Bool) (field : FieldDesc) (es : List Val) (fSize : Nat)
    (eSizes : List Nat)
    (hrep : field.repeated = true) (hpacked : field.packed = true)
    (hnum : isNumeric field.type = true)
    (hty : ∀ e ∈ es, hasType field.type e = true) :
    sizeField proto3 field (Val.list es) fSize eSizes
      = if es.isEmpty = true then 0
        else keySize field.number 2 + VarintLength (packedPayloadLen field.type es)
          + packedPayloadLen field.type es := by
  obtain ⟨number, type, repeated, packed, nullable, customtype, map⟩ := field
  simp only at hrep hpacked hnum hty
  subst hrep hpacked
  by_cases hne : es = []
  · subst hne
    simp [sizeField, Val.len]
  · rw [if_neg (by simpa using hne)]
    have hlen : 0 < es.length := List.length_pos.2 hne
    have hv : ∀ t, (t = FieldType.TYPE_INT32 ∨ t = FieldType.TYPE_INT64
        ∨ t = FieldType.TYPE_UINT32 ∨ t = FieldType.TYPE_UINT64 ∨ t = FieldType.TYPE_ENUM) →
        (∀ e ∈ es, hasType t e = true) →
        (es.map (fun e => sov e.u64)).sum = (es.map (payloadSize t)).sum :=
      fun t ht h => sum_map_congr _ _ es (fun e he => payload_varint t e (h e he) ht)
    have hz : ∀ t, (t = FieldType.TYPE_SINT32 ∨ t = FieldType.TYPE_SINT64) →
        (∀ e ∈ es, hasType t e = true) →
        (es.map (fun e => soz e.u64)).sum = (es.map (payloadSize t)).sum :=
      fun t ht h => sum_map_congr _ _ es (fun e he => payload_sint t e (h e he) ht)
    cases type <;> simp [isNumeric] at hnum <;>
      simp [sizeField, Val.len, Val.elems, hlen, WireBytes, packedPayloadLen] <;>
      (try rw [hv _ (by simp) hty]) <;> (try rw [hz _ (by simp) hty]) <;>
      simp [sov_eq_VarintLength]

theorem packedPayloadLen_eq (t : FieldType) (es : List Val) :
    packedPayloadLen t es = (es.map (payloadSize t)).sum := by
  cases t <;> simp only [packedPayloadLen] <;> induction es <;>
    simp_all [payloadSize] <;> omega

theorem length_encodeField_packed (proto3 : Bool) (field : FieldDesc) (es : List Val)
    (fEnc : List Nat) (eEncs : List (List Nat))
    (hrep : field.repeated = true) (hpacked : field.packed = true)
    (hmap : field.map = none)
    (h1 : 1 ≤ field.number) (h2 : field.number < 2 ^ 29)
    (hty : ∀ e ∈ es, hasType field.type e = true) :
    (encodeField proto3 field (Val.list es) fEnc eEncs).length
      = keySize field.number 2 + VarintLength (packedPayloadLen field.type es)
          + packedPayloadLen field.type es := by
  unfold encodeField
  simp only [hmap, hrep, hpacked, if_true, Val.elems]
  rw [List.length_append, length_tagBytes _ 2 h1 h2 (by decide) (by decide),
    length_lengthDelimited, sum_flatten_map, packedPayloadLen_eq,
    sum_map_congr _ (payloadSize field.type) es
      (fun e he => length_encodeScalar _ _ (hty e he)), nestedPayload]
  omega


theorem entry_sum_eq (m : MapDesc) (k v : Val) (vSize : Nat)
    (hk : isScalar m.keyType = true) (hg : m.valueType ≠ FieldType.TYPE_GROUP)
    (hkt : hasType m.keyType k = true)
    (hvt : if m.valueType = FieldType.TYPE_MESSAGE then (v.isNil = false ∨ vSize = 0)
      else hasType m.valueType v = true) :
    keySize 1 (wireToType (GoTypeWire m.keyType)) + mapKeySum m.keyType k
        + keySize 2 (wireToType (GoTypeWire m.valueType)) + mapValueSum m.valueType v vSize
      = entrySize m k v vSize := by
  have e1 := mapKeySum_eq m.keyType k hk hkt
  have e2 : mapValueSum m.valueType v vSize
      = (if m.valueType = FieldType.TYPE_MESSAGE then nestedPayload vSize
          else payloadSize m.valueType v) := by
    by_cases hmsg : m.valueType = FieldType.TYPE_MESSAGE
    · rw [if_pos hmsg] at hvt ⊢
      rw [hmsg]
      rcases hvt with h | h
      · simp [mapValueSum, h, nestedPayload, sov_eq_VarintLength]
      · subst h
        cases hn : v.isNil <;> simp [mapValueSum, hn, nestedPayload, sov_eq_VarintLength]
    · rw [if_neg hmsg] at hvt ⊢
      apply mapValueSum_scalar _ _ _ _ hvt
      cases hvt' : m.valueType <;> simp_all [isScalar]
  rw [e1, e2, entrySize, wireToType_GoTypeWire, wireToType_GoTypeWire]

theorem sizeField_map (proto3 : Bool) (field : FieldDesc) (m : MapDesc)
    (kvs : List (Val × Val)) (fSize : Nat) (vSizes : List Nat)
    (ht : field.type = FieldType.TYPE_MESSAGE) (hm : field.map = some m)
    (hk : isScalar m.keyType = true) (hg : m.valueType ≠ FieldType.TYPE_GROUP)
    (hkv : ∀ p ∈ kvs.zip vSizes, hasType m.keyType p.1.1 = true
      ∧ (if m.valueType = FieldType.TYPE_MESSAGE then (p.1.2.isNil = false ∨ p.2 = 0)
          else hasType m.valueType p.1.2 = true)) :
    sizeField proto3 field (Val.map kvs) fSize vSizes
      = ((kvs.zip vSizes).map (fun p =>
          keySize field.number 2 + VarintLength (entrySize m p.1.1 p.1.2 p.2)
            + entrySize m p.1.1 p.1.2 p.2)).sum := by
  obtain ⟨number, type, repeated, packed, nullable, customtype, map⟩ := field
  simp only at ht hm
  subst ht hm
  have key : ((kvs.zip vSizes).map (fun kv =>
        keySize 1 (wireToType (GoTypeWire m.keyType)) + mapKeySum m.keyType kv.1.1
            + keySize 2 (wireToType (GoTypeWire m.valueType))
            + mapValueSum m.valueType kv.1.2 kv.2
          + keySize number (wireToType (GoTypeWire FieldType.TYPE_MESSAGE))
          + sov (keySize 1 (wireToType (GoTypeWire m.keyType)) + mapKeySum m.keyType kv.1.1
            + keySize 2 (wireToType (GoTypeWire m.valueType))
            + mapValueSum m.valueType kv.1.2 kv.2))).sum
      = ((kvs.zip vSizes).map (fun p =>
          keySize number 2 + VarintLength (entrySize m p.1.1 p.1.2 p.2)
            + entrySize m p.1.1 p.1.2 p.2)).sum := by
    apply sum_map_congr
    intro p hp
    rw [entry_sum_eq m p.1.1 p.1.2 p.2 hk hg (hkv p hp).1 (hkv p hp).2,
      wireToType_GoTypeWire, sov_eq_VarintLength, wireKind]
    omega
  by_cases hlen : 0 < kvs.length
  · by_cases hr : repeated = true
    · simp only [sizeField, hr, Val.len, hlen, Val.entries]
      simpa using key
    · simp only [sizeField, hr, Val.len, hlen, Val.entries, Val.isNil]
      simpa using key
  · have : kvs = [] := by
      cases kvs with
      | nil => rfl
      | cons a b => simp at hlen
    subst this
    cases repeated <;> simp [sizeField, Val.len, Val.entries, Val.isNil]

theorem length_encodeEntry (m : MapDesc) (k v : Val) (vEnc : List Nat)
    (hkt : hasType m.keyType k = true)
    (hvt : m.valueType ≠ FieldType.TYPE_MESSAGE → hasType m.valueType v = true) :
    (encodeEntry m k v vEnc).length = entrySize m k v vEnc.length := by
  unfold encodeEntry entrySize
  simp only [List.length_append]
  rw [length_tagBytes_kind 1 _ (by decide) (by decide),
    length_tagBytes_kind 2 _ (by decide) (by decide), length_encodeScalar _ _ hkt]
  by_cases hmsg : m.valueType = FieldType.TYPE_MESSAGE
  · rw [if_pos hmsg, if_pos hmsg, length_lengthDelimited]
  · rw [if_neg hmsg, if_neg hmsg, length_encodeScalar _ _ (hvt hmsg)]

theorem length_encodeField_map (proto3 : Bool) (field : FieldDesc) (m : MapDesc)
    (kvs : List (Val × Val)) (fEnc : List Nat) (vEncs : List (List Nat))
    (hm : field.map = some m)
    (h1 : 1 ≤ field.number) (h2 : field.number < 2 ^ 29)
    (hkv : ∀ kv ∈ kvs, hasType m.keyType kv.1 = true
      ∧ (m.valueType ≠ FieldType.TYPE_MESSAGE → hasType m.valueType kv.2 = true)) :
    (encodeField proto3 field (Val.map kvs) fEnc vEncs).length
      = ((kvs.zip (vEncs.map List.length)).map (fun p =>
          keySize field.number 2 + VarintLength (entrySize m p.1.1 p.1.2 p.2)
            + entrySize m p.1.1 p.1.2 p.2)).sum := by
  unfold encodeField
  simp only [hm, Val.entries]
  rw [sum_flatten_map, List.zip_map_right, List.map_map]
  apply sum_map_congr
  intro p hp
  have hmem : p.1 ∈ kvs := (List.of_mem_zip (show (p.1, p.2) ∈ kvs.zip vEncs from hp)).1
  simp only [Function.comp, Prod.map, id]
  rw [List.length_append, length_tagBytes _ 2 h1 h2 (by decide) (by decide),
    length_lengthDelimited,
    length_encodeEntry m p.1.1 p.1.2 p.2 (hkv p.1 hmem).1 (hkv p.1 hmem).2, nestedPayload]
  omega


theorem isNumeric_not_nested (field : FieldDesc) (h : isNumeric field.type = true) :
    field.isNested = false := by
  obtain ⟨number, type, repeated, packed, nullable, customtype, map⟩ := field
  cases type <;> simp [isNumeric] at h <;> simp [FieldDesc.isNested]

theorem isMsg_not_nil (v : Val) (h : v.isMsg = true) : v.isNil = false := by
  cases v <;> simp [Val.isMsg] at h <;> rfl

theorem sizeField_eq_encodeField (proto3 : Bool) (field : FieldDesc) (v : Val)
    (fEnc : List Nat) (eEncs : List (List Nat))
    (hok : fieldOK proto3 field v = true)
    (hex : fieldExcepted proto3 field v = false)
    (hlen : ∀ es, v = Val.list es → eEncs.length = es.length) :
    sizeField proto3 field v fEnc.length (eEncs.map List.length)
      = (encodeField proto3 field v fEnc eEncs).length := by
  unfold fieldOK at hok
  simp only [Bool.and_eq_true, decide_eq_true_eq] at hok
  obtain ⟨⟨⟨h1, h2⟩, hgroup⟩, hrest⟩ := hok
  cases hm : field.map with
  | some m =>
    rw [hm] at hrest
    simp only [Bool.and_eq_true, decide_eq_true_eq, Bool.not_eq_true'] at hrest
    obtain ⟨⟨⟨⟨⟨ht, _⟩, _⟩, hk⟩, hg⟩, hv⟩ := hrest
    cases v <;> simp only [Bool.false_eq_true] at hv
    rename_i kvs
    rw [List.all_eq_true] at hv
    have hent : ∀ kv ∈ kvs, hasType m.keyType kv.1 = true
        ∧ (if m.valueType = FieldType.TYPE_MESSAGE then kv.2.isMsg = true
            else hasType m.valueType kv.2 = true) := by
      intro kv hkv
      have := hv kv hkv
      unfold entryOK at this
      simp only [Bool.and_eq_true] at this
      refine ⟨this.1, ?_⟩
      by_cases hmsg : m.valueType = FieldType.TYPE_MESSAGE
      · rw [if_pos hmsg] at this ⊢; exact this.2
      · rw [if_neg hmsg] at this ⊢; exact this.2
    rw [sizeField_map proto3 field m kvs _ _ ht hm hk hg, length_encodeField_map proto3 field m
      kvs fEnc eEncs hm h1 h2]
    · intro kv hkv
      refine ⟨(hent kv hkv).1, fun hmsg => ?_⟩
      have := (hent kv hkv).2
      rw [if_neg hmsg] at this
      exact this
    · intro p hp
      have hmem : p.1 ∈ kvs :=
        (List.of_mem_zip (show (p.1, p.2) ∈ kvs.zip (eEncs.map List.length) from hp)).1
      refine ⟨(hent p.1 hmem).1, ?_⟩
      have := (hent p.1 hmem).2
      by_cases hmsg : m.valueType = FieldType.TYPE_MESSAGE
      · rw [if_pos hmsg] at this ⊢
        exact Or.inl (isMsg_not_nil _ this)
      · rw [if_neg hmsg] at this ⊢
        exact this
  | none =>
    rw [hm] at hrest
    simp only [Bool.and_eq_true, Bool.or_eq_true, Bool.not_eq_true', decide_eq_true_eq]
      at hrest
    obtain ⟨⟨hpk, hct⟩, hv⟩ := hrest
    have hcustom : field.customtype = true → field.type = FieldType.TYPE_BYTES := by
      intro hc
      rcases hct with h | h
      · rw [hc] at h; cases h
      · exact h
    by_cases hrep : field.repeated = true
    · rw [if_pos hrep] at hv
      cases v <;> simp only [Bool.false_eq_true] at hv
      rename_i es
      rw [List.all_eq_true] at hv
      by_cases hp : field.packed = true
      · have hnum : isNumeric field.type = true := by
          rcases hpk with h | h
          · rw [hp] at h; cases h
          · exact h.2
        have hnn := isNumeric_not_nested field hnum
        have hty : ∀ e ∈ es, hasType field.type e = true :=
          fun e he => elemOK_scalar field e hnn (hv e he)
        have hemp : es.isEmpty = false := by
          unfold fieldExcepted at hex
          rw [hrep, hp] at hex
          cases es with
          | nil => simp [Val.len] at hex
          | cons a b => rfl
        rw [sizeField_packed proto3 field es _ _ hrep hp hnum hty,
          length_encodeField_packed proto3 field es fEnc eEncs hrep hp hm h1 h2 hty, hemp]
        simp
      · have hp' : field.packed = false := by simpa using hp
        by_cases hn : field.isNested = true
        · rw [sizeField_repeated_nested proto3 field es _ _ hrep hp' hm hn hcustom
            (by rw [List.length_map]; exact hlen es rfl),
            length_encodeField_repeated_nested proto3 field es fEnc eEncs hrep hp' hm hn h1 h2]
        · have hn' : field.isNested = false := by simpa using hn
          have hty : ∀ e ∈ es, hasType field.type e = true :=
            fun e he => elemOK_scalar field e hn' (hv e he)
          rw [sizeField_repeated_scalar proto3 field es _ _ hrep hp' hm hgroup hn' hty,
            length_encodeField_repeated_scalar proto3 field es fEnc eEncs hrep hp' hm hn'
              h1 h2 hty]
    · have hrep' : field.repeated = false := by simpa using hrep
      rw [if_neg hrep] at hv
      have hp' : field.packed = false := by
        rcases hpk with h | h
        · exact h
        · rw [hrep'] at h; exact absurd h.1 (by decide)
      have hv' : (v.isNil = true ∧ nilAllowed proto3 field = true)
          ∨ (v.isNil = false ∧ elemOK field v = true) := by
        simpa using hv
      rw [sizeField_singular proto3 field v _ _ hrep' hp' hm hgroup hcustom hv',
        length_encodeField_singular proto3 field v fEnc eEncs hrep' hm h1 h2 hv',
        isSized_eq_isWritten proto3 field v hrep' hex]

theorem listEncodings_length (es : List Val) : (listEncodings es).length = es.length := by
  induction es with
  | nil => simp [listEncodings]
  | cons e es ih => simp [listEncodings, ih]

theorem elemEncodings_length (v : Val) (es : List Val) (h : v = Val.list es) :
    (elemEncodings v).length = es.length := by
  subst h
  simp [elemEncodings, listEncodings_length]

theorem sizeTrailer_eq (desc : MessageDesc) (ext : Extensions) (unrec : Option (List Nat))
    (h : trailerOK desc ext unrec = true) :
    sizeTrailer desc ext unrec = (encodeTrailer ext unrec).length := by
  obtain ⟨fields, sizer, mapEntry, hasExtension, extensionsMap, hasUnrecognized⟩ := desc
  cases hasExtension <;> cases extensionsMap <;> cases hasUnrecognized <;> cases ext <;>
    cases unrec <;>
    simp [trailerOK] at h <;>
    simp [sizeTrailer, encodeTrailer, Extensions.isNil, Extensions.len, SizeOfExtensionMap,
      List.length_flatten]

mutual
theorem Size_eq_Encode :
    ∀ (v : Val), v.valid = true → v.regular = true → v.Size = v.Encode.length
  | .msg proto3 desc fields ext unrec, h, hr => by
    simp only [Val.valid, Bool.and_eq_true] at h
    simp only [Val.regular] at hr
    simp only [Val.Size, Val.Encode, List.length_append]
    rw [sizeFields_eq_encodeFields proto3 desc.fields fields h.1.2 hr,
      sizeTrailer_eq _ _ _ h.2]
  | .custom b, _, _ => by simp [Val.Size, Val.Encode]
  | .nil, _, _ => by simp [Val.Size, Val.Encode]
  | .int _, _, _ => by simp [Val.Size, Val.Encode]
  | .float64 _, _, _ => by simp [Val.Size, Val.Encode]
  | .float32 _, _, _ => by simp [Val.Size, Val.Encode]
  | .bool _, _, _ => by simp [Val.Size, Val.Encode]
  | .bytes _, _, _ => by simp [Val.Size, Val.Encode]
  | .list _, _, _ => by simp [Val.Size, Val.Encode]
  | .map _, _, _ => by simp [Val.Size, Val.Encode]
theorem sizeFields_eq_encodeFields (proto3 : Bool) :
    ∀ (fds : List FieldDesc) (vs : List Val), validFields proto3 fds vs = true →
      regularFields proto3 fds vs = true →
      sizeFields proto3 fds vs = (encodeFields proto3 fds vs).length
  | [], [], _, _ => by simp [sizeFields, encodeFields]
  | [], _ :: _, _, _ => by simp [sizeFields, encodeFields]
  | _ :: _, [], _, _ => by simp [sizeFields, encodeFields]
  | field :: fds, v :: vs, h, hr => by
    simp only [validFields, Bool.and_eq_true] at h
    simp only [regularFields, Bool.and_eq_true, Bool.not_eq_true'] at hr
    simp only [sizeFields, encodeFields, List.length_append]
    rw [sizeFields_eq_encodeFields proto3 fds vs h.2 hr.2, Size_eq_Encode v h.1.2 hr.1.2,
      elemSizes_eq_elemEncodings v h.1.2 hr.1.2,
      sizeField_eq_encodeField proto3 field v _ _ h.1.1 hr.1.1 (elemEncodings_length v)]
theorem elemSizes_eq_elemEncodings :
    ∀ (v : Val), v.valid = true → v.regular = true →
      elemSizes v = (elemEncodings v).map List.length
  | .list es, h, hr => by
    simp only [Val.valid] at h
    simp only [Val.regular] at hr
    simp only [elemSizes, elemEncodings]
    exact listSizes_eq_listEncodings es h hr
  | .map kvs, h, hr => by
    simp only [Val.valid] at h
    simp only [Val.regular] at hr
    simp only [elemSizes, elemEncodings]
    exact valueSizes_eq_valueEncodings kvs h hr
  | .msg _ _ _ _ _, _, _ => by simp [elemSizes, elemEncodings]
  | .custom _, _, _ => by simp [elemSizes, elemEncodings]
  | .nil, _, _ => by simp [elemSizes, elemEncodings]
  | .int _, _, _ => by simp [elemSizes, elemEncodings]
  | .float64 _, _, _ => by simp [elemSizes, elemEncodings]
  | .float32 _, _, _ => by simp [elemSizes, elemEncodings]
  | .bool _, _, _ => by simp [elemSizes, elemEncodings]
  | .bytes _, _, _ => by simp [elemSizes, elemEncodings]
theorem listSizes_eq_listEncodings :
    ∀ (es : List Val), validList es = true → regularList es = true →
      listSizes es = (listEncodings es).map List.length
  | [], _, _ => by simp [listSizes, listEncodings]
  | e :: es, h, hr => by
    simp only [validList, Bool.and_eq_true] at h
    simp only [regularList, Bool.and_eq_true] at hr
    simp only [listSizes, listEncodings, List.map_cons]
    rw [Size_eq_Encode e h.1 hr.1, listSizes_eq_listEncodings es h.2 hr.2]
theorem valueSizes_eq_valueEncodings :
    ∀ (kvs : List (Val × Val)), validEntries kvs = true → regularEntries kvs = true →
      valueSizes kvs = (valueEncodings kvs).map List.length
  | [], _, _ => by simp [valueSizes, valueEncodings]
  | (_, v) :: kvs, h, hr => by
    simp only [validEntries, Bool.and_eq_true] at h
    simp only [regularEntries, Bool.and_eq_true] at hr
    simp only [valueSizes, valueEncodings, List.map_cons]
    rw [Size_eq_Encode v h.1 hr.1, valueSizes_eq_valueEncodings kvs h.2 hr.2]
end

theorem generateMessages_mem (proto3 : Bool) :
    ∀ (messages : List MessageDesc) (methods : List (MessageDesc × (Val → Nat))),
      generateMessages proto3 messages = .ok methods →
      ∀ p ∈ methods, p.2 = generatedSize proto3 p.1 ∧ p.1 ∈ messages
        ∧ p.1.sizer = true ∧ p.1.mapEntry = false
  | [], methods, h => by
    simp only [generateMessages, Except.ok.injEq] at h
    subst h
    intro p hp
    cases hp
  | message :: rest, methods, h => by
    unfold generateMessages at h
    by_cases hs : message.sizer = true
    · by_cases hm : message.mapEntry = true
      · simp only [hs, hm, Bool.not_true, Bool.false_eq_true, if_false, if_true] at h
        intro p hp
        have := generateMessages_mem proto3 rest methods h p hp
        exact ⟨this.1, List.mem_cons_of_mem _ this.2.1, this.2.2⟩
      · simp only [hs, hm, Bool.not_true, Bool.false_eq_true, if_false] at h
        cases hf : generateFields message.fields with
        | error e => rw [hf] at h; cases h
        | ok u =>
          rw [hf] at h
          cases hr : generateMessages proto3 rest with
          | error e => rw [hr] at h; cases h
          | ok ms =>
            rw [hr] at h
            simp only [Except.ok.injEq] at h
            subst h
            intro p hp
            rcases List.mem_cons.1 hp with hp | hp
            · subst hp
              exact ⟨rfl, List.mem_cons_self _ _, hs, by simpa using hm⟩
            · have := generateMessages_mem proto3 rest ms hr p hp
              exact ⟨this.1, List.mem_cons_of_mem _ this.2.1, this.2.2⟩
    · have hs' : message.sizer = false := by simpa using hs
      simp only [hs', Bool.not_false, if_true] at h
      intro p hp
      have := generateMessages_mem proto3 rest methods h p hp
      exact ⟨this.1, List.mem_cons_of_mem _ this.2.1, this.2.2⟩

theorem generatedSize_eq (proto3 : Bool) (message : MessageDesc) (fields : List Val)
    (ext : Extensions) (unrec : Option (List Nat)) :
    generatedSize proto3 message (Val.msg proto3 message fields ext unrec)
      = (Val.msg proto3 message fields ext unrec).Size := by
  simp [generatedSize, Val.Size]

/-! ## The calls made by the generated method return on a valid value -/

theorem all_zip_nonNil (kvs : List (Val × Val)) :
    (kvs.zip (kvs.map (fun kv => !kv.2.isNil))).all (fun kv => kv.1.2.isNil || kv.2) = true := by
  induction kvs with
  | nil => rfl
  | cons kv kvs ih =>
    simp only [List.map_cons, List.zip_cons_cons, List.all_cons, ih, Bool.and_true]
    cases kv.2.isNil <;> rfl

theorem isCustom_not_nil (v : Val) (h : v.isCustom = true) : v.isNil = false := by
  cases v <;> simp [Val.isCustom] at h <;> rfl

theorem fieldNilFree_of_fieldOK (proto3 : Bool) (field : FieldDesc) (v : Val) (fOK : Bool)
    (eOK : List Bool)
    (hok : fieldOK proto3 field v = true)
    (hf : fOK = !v.isNil)
    (hl : ∀ es, v = Val.list es → eOK = es.map (fun e => !e.isNil))
    (hm : ∀ kvs, v = Val.map kvs → eOK = kvs.map (fun kv => !kv.2.isNil)) :
    fieldNilFree proto3 field v fOK eOK = true := by
  unfold fieldOK at hok
  simp only [Bool.and_eq_true, decide_eq_true_eq] at hok
  obtain ⟨⟨⟨h1, h2⟩, hgroup⟩, hrest⟩ := hok
  obtain ⟨number, type, repeated, packed, nullable, customtype, map⟩ := field
  simp only at hrest hgroup
  cases map with
  | some m =>
    simp only [Bool.and_eq_true, decide_eq_true_eq, Bool.not_eq_true'] at hrest
    obtain ⟨⟨⟨⟨⟨ht, hrep⟩, _⟩, _⟩, _⟩, hv⟩ := hrest
    subst ht hrep
    cases v <;> simp only [Bool.false_eq_true] at hv
    rename_i kvs
    rw [hm kvs rfl]
    cases kvs with
    | nil => simp [fieldNilFree, Val.len]
    | cons kv kvs =>
      simp only [fieldNilFree, Val.len, Val.entries, List.length_cons, Bool.true_and,
        Bool.not_true, Bool.false_and, Nat.succ_pos, gt_iff_lt, decide_True,
        Bool.false_eq_true, if_false]
      split_ifs
      · exact all_zip_nonNil (kv :: kvs)
      · rfl
  | none =>
    simp only [Bool.and_eq_true, Bool.or_eq_true, Bool.not_eq_true', decide_eq_true_eq]
      at hrest
    obtain ⟨⟨_, hct⟩, hv⟩ := hrest
    cases repeated with
    | true =>
      simp only [if_true] at hv
      cases v <;> simp only [Bool.false_eq_true] at hv
      rename_i es
      rw [List.all_eq_true] at hv
      rw [hl es rfl]
      cases es with
      | nil => simp [fieldNilFree, Val.len]
      | cons e es =>
        by_cases hmsg : type = FieldType.TYPE_MESSAGE
        · subst hmsg
          have hnn : ∀ x ∈ e :: es, x.isNil = false := fun x hx =>
            isMsg_not_nil x (by simpa [elemOK] using hv x hx)
          simp [fieldNilFree, Val.len]
          exact ⟨hnn e (by simp), fun x hx => hnn x (by simp [hx])⟩
        · by_cases hb : type = FieldType.TYPE_BYTES ∧ customtype = true
          · obtain ⟨hb1, hb2⟩ := hb
            subst hb1 hb2
            have hnn : ∀ x ∈ e :: es, x.isNil = false := fun x hx =>
              isCustom_not_nil x (by simpa [elemOK] using hv x hx)
            simp [fieldNilFree, Val.len]
            exact ⟨hnn e (by simp), fun x hx => hnn x (by simp [hx])⟩
          · cases type <;> cases customtype <;> simp at hmsg hb hct <;>
              simp [fieldNilFree, Val.len]
    | false =>
      have hv' : (v.isNil = true
            ∧ nilAllowed proto3 ⟨number, type, false, packed, nullable, customtype, none⟩ = true)
          ∨ (v.isNil = false
            ∧ elemOK ⟨number, type, false, packed, nullable, customtype, none⟩ v = true) := by
        simpa using hv
      rcases hv' with ⟨hn, ha⟩ | ⟨hn, he⟩
      · cases v <;> simp [Val.isNil] at hn
        cases proto3 <;> cases customtype <;> cases nullable <;> cases type <;>
          simp [nilAllowed] at ha hct <;>
          simp [fieldNilFree, FieldDesc.IsMessage, Val.isNil, Val.len]
      · have hn' : v.isNil = false := by simpa using hn
        rw [hn'] at hf
        subst hf
        cases type <;> cases customtype <;> simp at hct <;>
          simp [fieldNilFree, hn']

mutual
theorem valid_nilFree_eq : ∀ (v : Val), v.valid = true → v.nilFree = !v.isNil
  | .msg proto3 desc fields ext unrec, h => by
    simp only [Val.valid, Bool.and_eq_true] at h
    simp only [Val.nilFree, Val.isNil, Bool.not_false]
    exact validFields_nilFree proto3 desc.fields fields h.1.2
  | .custom _, _ => rfl
  | .nil, _ => rfl
  | .int _, _ => rfl
  | .float64 _, _ => rfl
  | .float32 _, _ => rfl
  | .bool _, _ => rfl
  | .bytes _, _ => rfl
  | .list _, _ => rfl
  | .map _, _ => rfl
theorem validFields_nilFree (proto3 : Bool) :
    ∀ (fds : List FieldDesc) (vs : List Val), validFields proto3 fds vs = true →
      fieldsNilFree proto3 fds vs = true
  | [], [], _ => rfl
  | [], _ :: _, _ => rfl
  | _ :: _, [], _ => rfl
  | field :: fds, v :: vs, h => by
    simp only [validFields, Bool.and_eq_true] at h
    simp only [fieldsNilFree, Bool.and_eq_true]
    refine ⟨fieldNilFree_of_fieldOK proto3 field v _ _ h.1.1 (valid_nilFree_eq v h.1.2)
      (fun es hes => ?_) (fun kvs hkvs => ?_), validFields_nilFree proto3 fds vs h.2⟩
    · subst hes
      simp only [Val.valid] at h
      simp only [elemNilFree]
      exact validList_nilFree es h.1.2
    · subst hkvs
      simp only [Val.valid] at h
      simp only [elemNilFree]
      exact validEntries_nilFree kvs h.1.2
theorem validList_nilFree :
    ∀ (es : List Val), validList es = true → listNilFree es = es.map (fun e => !e.isNil)
  | [], _ => rfl
  | e :: es, h => by
    simp only [validList, Bool.and_eq_true] at h
    simp only [listNilFree, List.map_cons]
    rw [valid_nilFree_eq e h.1, validList_nilFree es h.2]
theorem validEntries_nilFree :
    ∀ (kvs : List (Val × Val)), validEntries kvs = true →
      valuesNilFree kvs = kvs.map (fun kv => !kv.2.isNil)
  | [], _ => rfl
  | (_, v) :: kvs, h => by
    simp only [validEntries, Bool.and_eq_true] at h
    simp only [valuesNilFree, List.map_cons]
    rw [valid_nilFree_eq v h.1, validEntries_nilFree kvs h.2]
end

theorem valid_nilFree (v : Val) (h : v.valid = true) (hn : v.isNil = false) :
    v.nilFree = true := by
  rw [valid_nilFree_eq v h, hn]
  rfl

/-- C1, amended: for every valid message value `m` of a
sizer-enabled message type (a finite tree of values, every field drawn from the
supported type matrix) in which, at any depth, no singular non-nullable field
is nil or a proto3 scalar at its zero value, no packed field is empty, and no
nullable proto3 float holds negative zero, the method `Size` printed by
`Generate` for that type is called on no nil receiver and returns exactly the
number of bytes the paired wire-format encoder produces for `m`. -/
theorem Size_eq_encoded_length (file : FileDesc)
    (methods : List (MessageDesc × (Val → Nat))) (message : MessageDesc) (size : Val → Nat)
    (fields : List Val) (ext : Extensions) (unrec : Option (List Nat))
    (hgen : Generate file = .ok methods) (hmem : (message, size) ∈ methods)
    (hvalid : (Val.msg file.proto3 message fields ext unrec).valid = true)
    (hregular : (Val.msg file.proto3 message fields ext unrec).regular = true) :
    (Val.msg file.proto3 message fields ext unrec).nilFree = true
      ∧ size (Val.msg file.proto3 message fields ext unrec)
        = (Val.msg file.proto3 message fields ext unrec).Encode.length := by
  refine ⟨valid_nilFree _ hvalid rfl, ?_⟩
  have h := (generateMessages_mem file.proto3 file.messages methods hgen _ hmem).1
  simp only at h
  rw [h, generatedSize_eq]
  exact Size_eq_Encode _ hvalid hregular

theorem Size_eq_encoded_length_witness :
    Generate exampleFile
        = .ok [(exampleA, generatedSize false exampleA), (exampleB, generatedSize false exampleB)]
      ∧ (Val.msg exampleFile.proto3 exampleB exampleBFields Extensions.nil
          (some [9, 9, 9])).valid = true
      ∧ (Val.msg exampleFile.proto3 exampleB exampleBFields Extensions.nil
          (some [9, 9, 9])).regular = true
      ∧ (Val.msg exampleFile.proto3 exampleB exampleBFields Extensions.nil
          (some [9, 9, 9])).nilFree = true
      ∧ generatedSize false exampleB
          (Val.msg exampleFile.proto3 exampleB exampleBFields Extensions.nil (some [9, 9, 9]))
        = (Val.msg exampleFile.proto3 exampleB exampleBFields Extensions.nil
            (some [9, 9, 9])).Encode.length :=
  ⟨rfl, by decide, by decide,
    Size_eq_encoded_length exampleFile
      [(exampleA, generatedSize false exampleA), (exampleB, generatedSize false exampleB)]
      exampleB (generatedSize false exampleB) exampleBFields Extensions.nil (some [9, 9, 9])
      rfl (by simp) (by decide) (by decide)⟩

/-- C1, as stated, fails: in a proto3 file the generated `Size` returns 0 for
the valid message whose non-nullable int32 field 1 holds 0, where the encoder
writes the two bytes 8, 0 (a non-nullable field is always serialized); for the
valid message whose packed field 1 is empty, where the encoder writes 10, 0
(`tag + VarintLength(0) + 0`); for the valid message whose non-nullable bytes
field 1 is nil, where the encoder writes 10, 0; and for the valid message whose
double field 1 holds negative zero, where the encoder writes the tag 9 and the
eight bytes of the value. -/
theorem Size_differs_from_Encode :
    Generate exceptedFile
        = .ok [(zeroScalarMessage, generatedSize true zeroScalarMessage),
            (emptyPackedMessage, generatedSize true emptyPackedMessage),
            (nilBytesMessage, generatedSize true nilBytesMessage),
            (negativeZeroMessage, generatedSize true negativeZeroMessage)]
      ∧ ((Val.msg exceptedFile.proto3 zeroScalarMessage [Val.int 0] Extensions.nil none).valid
          = true
        ∧ generatedSize true zeroScalarMessage
            (Val.msg exceptedFile.proto3 zeroScalarMessage [Val.int 0] Extensions.nil none) = 0
        ∧ (Val.msg exceptedFile.proto3 zeroScalarMessage [Val.int 0] Extensions.nil none).Encode
          = [8, 0])
      ∧ ((Val.msg exceptedFile.proto3 emptyPackedMessage [Val.list []] Extensions.nil none).valid
          = true
        ∧ generatedSize true emptyPackedMessage
            (Val.msg exceptedFile.proto3 emptyPackedMessage [Val.list []] Extensions.nil none) = 0
        ∧ (Val.msg exceptedFile.proto3 emptyPackedMessage [Val.list []] Extensions.nil
            none).Encode = [10, 0])
      ∧ ((Val.msg exceptedFile.proto3 nilBytesMessage [Val.nil] Extensions.nil none).valid = true
        ∧ generatedSize true nilBytesMessage
            (Val.msg exceptedFile.proto3 nilBytesMessage [Val.nil] Extensions.nil none) = 0
        ∧ (Val.msg exceptedFile.proto3 nilBytesMessage [Val.nil] Extensions.nil none).Encode
          = [10, 0])
      ∧ ((Val.msg exceptedFile.proto3 negativeZeroMessage [Val.float64 (2 ^ 63)] Extensions.nil
            none).valid = true
        ∧ generatedSize true negativeZeroMessage
            (Val.msg exceptedFile.proto3 negativeZeroMessage [Val.float64 (2 ^ 63)]
              Extensions.nil none) = 0
        ∧ (Val.msg exceptedFile.proto3 negativeZeroMessage [Val.float64 (2 ^ 63)] Extensions.nil
            none).Encode = [9, 0, 0, 0, 0, 0, 0, 0, 128]) := by
  have hv8 : varintBytes 8 = [8] := by rw [varintBytes]; rfl
  have hv9 : varintBytes 9 = [9] := by rw [varintBytes]; rfl
  have hv10 : varintBytes 10 = [10] := by rw [varintBytes]; rfl
  have hv0 : varintBytes 0 = [0] := by rw [varintBytes]; rfl
  refine ⟨rfl, ⟨by decide, ?_, ?_⟩, ⟨by decide, ?_, ?_⟩, ⟨by decide, ?_, ?_⟩, ⟨by decide, ?_, ?_⟩⟩
  · simp [generatedSize, exceptedFile, zeroScalarMessage, sizeFields, sizeField, sizeTrailer,
      FieldDesc.IsMessage, Val.isNil, Val.len, Val.neZero, Extensions.isNil]
  · simp [Val.Encode, exceptedFile, zeroScalarMessage, encodeFields, encodeField, isWritten,
      encodeElem, FieldDesc.isNested, encodeScalar, encodeTrailer, tagBytes, tagValue, wireKind,
      Val.toInt, uint64, hv8, hv0]
  · simp [generatedSize, exceptedFile, emptyPackedMessage, sizeFields, sizeField, sizeTrailer,
      FieldDesc.IsMessage, Val.isNil, Val.len, Extensions.isNil]
  · simp [Val.Encode, exceptedFile, emptyPackedMessage, encodeFields, encodeField,
      encodeTrailer, tagBytes, tagValue, Val.elems, lengthDelimited, hv10, hv0]
  · simp [generatedSize, exceptedFile, nilBytesMessage, sizeFields, sizeField, sizeTrailer,
      FieldDesc.IsMessage, Val.isNil, Val.len, Extensions.isNil]
  · simp [Val.Encode, exceptedFile, nilBytesMessage, encodeFields, encodeField, isWritten,
      encodeElem, FieldDesc.isNested, encodeScalar, encodeTrailer, tagBytes, tagValue, wireKind,
      Val.data, lengthDelimited, hv10, hv0]
  · simp [generatedSize, exceptedFile, negativeZeroMessage, sizeFields, sizeField, sizeTrailer,
      FieldDesc.IsMessage, Val.isNil, Val.len, Val.neZero, Extensions.isNil]
  · simp [Val.Encode, exceptedFile, negativeZeroMessage, encodeFields, encodeField, isWritten,
      isDefault, Val.isNil, encodeElem, FieldDesc.isNested, encodeScalar, encodeTrailer, tagBytes,
      tagValue, wireKind, Val.bits, fixedBytes, List.range, List.range.loop, hv9]

/-! ## Order of map entries -/

theorem fieldSize_map_sum (proto3 : Bool) (field : FieldDesc) (m : MapDesc)
    (kvs : List (Val × Val))
    (ht : field.type = FieldType.TYPE_MESSAGE) (hm : field.map = some m) :
    fieldSize proto3 field (Val.map kvs)
      = (kvs.map (fun kv =>
          keySize 1 (wireToType (GoTypeWire m.keyType)) + mapKeySum m.keyType kv.1
              + keySize 2 (wireToType (GoTypeWire m.valueType))
              + mapValueSum m.valueType kv.2 kv.2.Size
            + keySize field.number (wireToType (GoTypeWire FieldType.TYPE_MESSAGE))
            + sov (keySize 1 (wireToType (GoTypeWire m.keyType)) + mapKeySum m.keyType kv.1
              + keySize 2 (wireToType (GoTypeWire m.valueType))
              + mapValueSum m.valueType kv.2 kv.2.Size))).sum := by
  obtain ⟨number, type, repeated, packed, nullable, customtype, map⟩ := field
  simp only at ht hm
  subst ht hm
  cases kvs with
  | nil => cases repeated <;> simp [fieldSize, sizeField, Val.len, Val.entries, Val.isNil]
  | cons kv rest =>
    cases repeated <;>
      simp only [fieldSize, sizeField, Val.len, Val.entries, Val.isNil, elemSizes,
        valueSizes_eq, zip_map_self] <;>
      simp

/-- C11: for every map field and every two orderings of the same finite
collection of entries, one a permutation of the other, the number of bytes the
generated `Size` adds for the field is the same. -/
theorem map_entries_perm (proto3 : Bool) (field : FieldDesc) (m : MapDesc)
    (kvs kvs' : List (Val × Val))
    (ht : field.type = FieldType.TYPE_MESSAGE) (hm : field.map = some m)
    (hperm : List.Perm kvs kvs') :
    fieldSize proto3 field (Val.map kvs) = fieldSize proto3 field (Val.map kvs') := by
  rw [fieldSize_map_sum proto3 field m kvs ht hm, fieldSize_map_sum proto3 field m kvs' ht hm]
  exact (hperm.map _).sum_eq

theorem map_entries_perm_witness :
    List.Perm [(Val.int 1, Val.bytes [97]), (Val.int 2, Val.bytes [])]
        [(Val.int 2, Val.bytes []), (Val.int 1, Val.bytes [97])]
      ∧ fieldSize true ⟨7, FieldType.TYPE_MESSAGE, true, false, true, false,
            some ⟨FieldType.TYPE_INT32, FieldType.TYPE_STRING⟩⟩
          (Val.map [(Val.int 1, Val.bytes [97]), (Val.int 2, Val.bytes [])])
        = fieldSize true ⟨7, FieldType.TYPE_MESSAGE, true, false, true, false,
            some ⟨FieldType.TYPE_INT32, FieldType.TYPE_STRING⟩⟩
          (Val.map [(Val.int 2, Val.bytes []), (Val.int 1, Val.bytes [97])]) :=
  ⟨List.Perm.swap _ _ _, map_entries_perm true ⟨7, FieldType.TYPE_MESSAGE, true, false, true, false,
      some ⟨FieldType.TYPE_INT32, FieldType.TYPE_STRING⟩⟩
    ⟨FieldType.TYPE_INT32, FieldType.TYPE_STRING⟩ _ _ rfl rfl (List.Perm.swap _ _ _)⟩

/-! ## Extensions and unrecognized bytes -/

theorem keySize_wire (n w w' : Int) (hw0 : 0 ≤ w) (hw : w < 8) (hw0' : 0 ≤ w')
    (hw' : w' < 8) : keySize n w = keySize n w' := by
  have key : ∀ v : Int, 0 ≤ v → v < 8 →
      keySize n v = sov (2 ^ 3 * (uint32 n % 2 ^ 29) + v.toNat) := by
    intro v hv0 hv
    unfold keySize
    rw [keySizeLoop_eq, uint32_of_nonneg v hv0 (by omega), Nat.shiftLeft_eq, Nat.zero_add]
    have e : uint32 n * 2 ^ 3 % 2 ^ 32 = 2 ^ 3 * (uint32 n % 2 ^ 29) := by omega
    rw [e, ← Nat.mul_add_lt_is_or (show v.toNat < 2 ^ 3 by omega)]
  rw [key w hw0 hw, key w' hw0' hw']
  generalize uint32 n % 2 ^ 29 = c
  rw [sov_step, sov_step (2 ^ 3 * c + w'.toNat)]
  have h1 : (2 ^ 3 * c + w.toNat < 128) ↔ (2 ^ 3 * c + w'.toNat < 128) := by omega
  have h2 : (2 ^ 3 * c + w.toNat) / 128 = (2 ^ 3 * c + w'.toNat) / 128 := by omega
  simp only [h1, h2]

theorem keySize_pos (n w : Int) : 1 ≤ keySize n w := by
  unfold keySize
  rw [keySizeLoop_eq]
  have := sov_pos ((uint32 n <<< 3) % 2 ^ 32 ||| uint32 w)
  omega

theorem ten_mul_lt (k : Nat) : 10 * (k + 2) < 2 ^ (7 * (k + 1)) := by
  induction k with
  | zero => norm_num
  | succ k ih =>
    have e : 2 ^ (7 * (k + 1 + 1)) = 2 ^ (7 * (k + 1)) * 128 := by
      rw [show 7 * (k + 1 + 1) = 7 * (k + 1) + 7 by ring, pow_add]; norm_num
    rw [e]
    omega

theorem sov_le_ten (x : Nat) (h : x < 2 ^ 64) : sov x ≤ 10 := by
  rw [sov_le_iff 9 x]
  calc x < 2 ^ 64 := h
    _ ≤ 2 ^ (7 * (9 + 1)) := by norm_num

theorem soz_le_ten (x : Nat) : soz x ≤ 10 := by
  unfold soz
  exact sov_le_ten _ (uint64_lt _)

theorem payloadSize_bounds (t : FieldType) (e : Val) (hnum : isNumeric t = true)
    (h : hasType t e = true) : 1 ≤ payloadSize t e ∧ payloadSize t e ≤ 10 := by
  cases t <;> simp [isNumeric] at hnum <;> cases e <;> simp [hasType] at h <;>
    simp only [payloadSize] <;>
    first
      | omega
      | (rw [← sov_eq_VarintLength]; exact ⟨sov_pos _, sov_le_ten _ (uint64_lt _)⟩)
      | (rw [← soz_eq_ZigZagLength _ (by omega) (by omega)]
         exact ⟨by unfold soz; exact sov_pos _, soz_le_ten _⟩)

theorem sum_payload_bounds (t : FieldType) (es : List Val) (hnum : isNumeric t = true)
    (hty : ∀ e ∈ es, hasType t e = true) :
    es.length ≤ (es.map (payloadSize t)).sum ∧ (es.map (payloadSize t)).sum ≤ 10 * es.length := by
  induction es with
  | nil => simp
  | cons e es ih =>
    have hb := payloadSize_bounds t e hnum (hty e (List.mem_cons_self _ _))
    have := ih (fun x hx => hty x (List.mem_cons_of_mem _ hx))
    simp only [List.map_cons, List.sum_cons, List.length_cons]
    omega

theorem sum_add_const {α : Type} (f : α → Nat) (c : Nat) (xs : List α) :
    (xs.map (fun x => c + f x)).sum = xs.length * c + (xs.map f).sum := by
  induction xs with
  | nil => simp
  | cons x xs ih =>
    simp only [List.map_cons, List.sum_cons, List.length_cons, ih]
    ring

theorem ten_mul_lt_three (k : Nat) : 10 * (k + 3) < 2 ^ (7 * (k + 1)) := by
  induction k with
  | zero => norm_num
  | succ k ih =>
    have e : 2 ^ (7 * (k + 1 + 1)) = 2 ^ (7 * (k + 1)) * 128 := by
      rw [show 7 * (k + 1 + 1) = 7 * (k + 1) + 7 by ring, pow_add]; norm_num
    rw [e]
    omega

theorem packed_form (proto3 : Bool) (number : Int) (type : FieldType)
    (nullable customtype : Bool) (es : List Val)
    (hnum : isNumeric type = true) (hne : es ≠ [])
    (hty : ∀ e ∈ es, hasType type e = true) :
    fieldSize proto3 ⟨number, type, true, true, nullable, customtype, none⟩ (Val.list es)
      = keySize number 2 + VarintLength (es.map (payloadSize type)).sum
        + (es.map (payloadSize type)).sum := by
  have hemp : es.isEmpty = false := by
    cases es with
    | nil => exact absurd rfl hne
    | cons a b => rfl
  rw [fieldSize, sizeField_packed proto3 _ es _ _ rfl rfl hnum hty, hemp]
  simp only [Bool.false_eq_true, if_false, packedPayloadLen_eq]

theorem unpacked_form (proto3 : Bool) (number : Int) (type : FieldType)
    (nullable customtype : Bool) (es : List Val)
    (hnum : isNumeric type = true)
    (hty : ∀ e ∈ es, hasType type e = true) :
    fieldSize proto3 ⟨number, type, true, false, nullable, customtype, none⟩ (Val.list es)
      = es.length * keySize number 2 + (es.map (payloadSize type)).sum := by
  have hg : type ≠ FieldType.TYPE_GROUP := by
    intro h; subst h; simp [isNumeric] at hnum
  rw [fieldSize, sizeField_repeated_scalar proto3 _ es _ _ rfl rfl rfl hg
    (isNumeric_not_nested _ hnum) hty, sum_add_const]
  simp only
  rw [keySize_wire number (wireKind type) 2 (wireKind_bounds type).1 (wireKind_bounds type).2
    (by decide) (by decide)]

theorem packed_le_aux (proto3 : Bool) (number : Int) (type : FieldType)
    (nullable customtype : Bool) (es : List Val)
    (hnum : isNumeric type = true) (hN : 1 < es.length)
    (hty : ∀ e ∈ es, hasType type e = true) :
    fieldSize proto3 ⟨number, type, true, true, nullable, customtype, none⟩ (Val.list es)
      ≤ fieldSize proto3 ⟨number, type, true, false, nullable, customtype, none⟩
          (Val.list es) := by
  have hne : es ≠ [] := by
    intro h; subst h; simp at hN
  rw [packed_form proto3 number type nullable customtype es hnum hne hty,
    unpacked_form proto3 number type nullable customtype es hnum hty]
  have hb := sum_payload_bounds type es hnum hty
  have hK := keySize_pos number 2
  obtain ⟨k, hk⟩ : ∃ k, es.length = k + 2 := ⟨es.length - 2, by omega⟩
  have hV : VarintLength (es.map (payloadSize type)).sum ≤ k + 1 := by
    rw [← sov_eq_VarintLength, sov_le_iff]
    have := ten_mul_lt k
    omega
  have hM : k + 1 ≤ (k + 1) * keySize number 2 := Nat.le_mul_of_pos_right _ hK
  have hE : es.length * keySize number 2 = (k + 1) * keySize number 2 + keySize number 2 := by
    rw [hk]; ring
  rw [hE]
  omega

/-- C13: for every repeated numeric field (fixed-width, varint-family, sint or
bool), every field number and every list of N > 1 values of the field type,
the size the generated code computes when the field is packed is at most the
size it computes for the same values when the field is unpacked. -/
theorem packed_le_unpacked (proto3 : Bool) (number : Int) (type : FieldType)
    (nullable customtype : Bool) (es : List Val)
    (hnum : isNumeric type = true) (hN : 1 < es.length)
    (hty : ∀ e ∈ es, hasType type e = true) :
    fieldSize proto3 ⟨number, type, true, true, nullable, customtype, none⟩ (Val.list es)
      ≤ fieldSize proto3 ⟨number, type, true, false, nullable, customtype, none⟩
          (Val.list es) :=
  packed_le_aux proto3 number type nullable customtype es hnum hN hty

theorem packed_le_unpacked_witness :
    1 < ([Val.int (-1), Val.int 64, Val.int 0] : List Val).length
      ∧ fieldSize false ⟨4, FieldType.TYPE_SINT32, true, true, true, false, none⟩
          (Val.list [Val.int (-1), Val.int 64, Val.int 0])
        ≤ fieldSize false ⟨4, FieldType.TYPE_SINT32, true, false, true, false, none⟩
          (Val.list [Val.int (-1), Val.int 64, Val.int 0]) :=
  ⟨by decide, packed_le_unpacked false 4 FieldType.TYPE_SINT32 true false
    [Val.int (-1), Val.int 64, Val.int 0] rfl (by decide) (by simp [hasType])⟩

theorem keySize_5_2 : keySize 5 2 = 1 := by
  simp [keySize, keySizeLoop, uint32]

/-- C14, as stated, fails: for field number 5 of type int32 and the two values
`[1, 300]` the packed size and the unpacked size are both 5. -/
theorem packed_eq_unpacked_two :
    1 < ([Val.int 1, Val.int 300] : List Val).length
      ∧ fieldSize false ⟨5, FieldType.TYPE_INT32, true, true, true, false, none⟩
          (Val.list [Val.int 1, Val.int 300]) = 5
      ∧ fieldSize false ⟨5, FieldType.TYPE_INT32, true, false, true, false, none⟩
          (Val.list [Val.int 1, Val.int 300]) = 5 := by
  refine ⟨by decide, ?_, ?_⟩
  · simp [fieldSize, sizeField, Val.len, Val.elems, Val.u64, WireBytes, keySize_5_2,
      uint64_of_nonneg, sov_300, sov_of_lt]
  · simp [fieldSize, sizeField, Val.len, Val.elems, Val.u64, wireToType_GoTypeWire,
      wireKind, keySize_5_0, uint64_of_nonneg, sov_300, sov_of_lt]

/-- C14, amended: for every repeated numeric field and every list of N > 1
values of the field type, the packed size is at most the unpacked size, and
the two are equal exactly when N = 2 and the tag takes one byte; for a list
of a single value the packed size is larger than the unpacked size. -/
theorem packed_eq_unpacked_iff (proto3 : Bool) (number : Int) (type : FieldType)
    (nullable customtype : Bool) (es : List Val)
    (hnum : isNumeric type = true)
    (hty : ∀ e ∈ es, hasType type e = true) :
    (1 < es.length →
        fieldSize proto3 ⟨number, type, true, true, nullable, customtype, none⟩ (Val.list es)
            ≤ fieldSize proto3 ⟨number, type, true, false, nullable, customtype, none⟩
                (Val.list es)
          ∧ (fieldSize proto3 ⟨number, type, true, true, nullable, customtype, none⟩
                (Val.list es)
              = fieldSize proto3 ⟨number, type, true, false, nullable, customtype, none⟩
                  (Val.list es)
            ↔ es.length = 2 ∧ keySize number 2 = 1))
      ∧ (es.length = 1 →
          fieldSize proto3 ⟨number, type, true, false, nullable, customtype, none⟩ (Val.list es)
            < fieldSize proto3 ⟨number, type, true, true, nullable, customtype, none⟩
                (Val.list es)) := by
  have hb := sum_payload_bounds type es hnum hty
  have hK := keySize_pos number 2
  have hVpos : 1 ≤ VarintLength (es.map (payloadSize type)).sum := by
    rw [← sov_eq_VarintLength]; exact sov_pos _
  constructor
  · intro hN
    refine ⟨packed_le_aux proto3 number type nullable customtype es hnum hN hty, ?_⟩
    have hne : es ≠ [] := by
      intro h; subst h; simp at hN
    rw [packed_form proto3 number type nullable customtype es hnum hne hty,
      unpacked_form proto3 number type nullable customtype es hnum hty]
    obtain ⟨k, hk⟩ : ∃ k, es.length = k + 2 := ⟨es.length - 2, by omega⟩
    have hE : es.length * keySize number 2
        = (k + 1) * keySize number 2 + keySize number 2 := by
      rw [hk]; ring
    rw [hE]
    cases k with
    | zero =>
      have hV : VarintLength (es.map (payloadSize type)).sum = 1 := by
        apply le_antisymm _ hVpos
        rw [← sov_eq_VarintLength, sov_le_iff 0]
        norm_num
        omega
      rw [hV]
      simp only [Nat.zero_add, Nat.one_mul]
      omega
    | succ j =>
      have hV : VarintLength (es.map (payloadSize type)).sum ≤ j + 1 := by
        rw [← sov_eq_VarintLength, sov_le_iff]
        have := ten_mul_lt_three j
        omega
      have hM : j + 1 + 1 ≤ (j + 1 + 1) * keySize number 2 := Nat.le_mul_of_pos_right _ hK
      constructor
      · intro h; omega
      · intro h; omega
  · intro h1
    have hne : es ≠ [] := by
      intro h; subst h; simp at h1
    rw [packed_form proto3 number type nullable customtype es hnum hne hty,
      unpacked_form proto3 number type nullable customtype es hnum hty, h1]
    omega

theorem packed_eq_unpacked_iff_witness :
    (1 < ([Val.int 1, Val.int 300] : List Val).length →
        fieldSize false ⟨5, FieldType.TYPE_INT32, true, true, true, false, none⟩
              (Val.list [Val.int 1, Val.int 300])
            ≤ fieldSize false ⟨5, FieldType.TYPE_INT32, true, false, true, false, none⟩
                (Val.list [Val.int 1, Val.int 300])
          ∧ (fieldSize false ⟨5, FieldType.TYPE_INT32, true, true, true, false, none⟩
                (Val.list [Val.int 1, Val.int 300])
              = fieldSize false ⟨5, FieldType.TYPE_INT32, true, false, true, false, none⟩
                  (Val.list [Val.int 1, Val.int 300])
            ↔ ([Val.int 1, Val.int 300] : List Val).length = 2 ∧ keySize 5 2 = 1))
      ∧ (([Val.int 1, Val.int 300] : List Val).length = 1 →
          fieldSize false ⟨5, FieldType.TYPE_INT32, true, false, true, false, none⟩
              (Val.list [Val.int 1, Val.int 300])
            < fieldSize false ⟨5, FieldType.TYPE_INT32, true, true, true, false, none⟩
                (Val.list [Val.int 1, Val.int 300])) :=
  packed_eq_unpacked_iff false 5 FieldType.TYPE_INT32 true false
    [Val.int 1, Val.int 300] rfl (by simp [hasType])

/-! ## Failures of `Generate` -/

theorem generateFields_error (fields : List FieldDesc) (e : Panic)
    (h : generateFields fields = .error e) : e = Panic.unsupportedGroup := by
  induction fields with
  | nil => simp [generateFields] at h
  | cons f rest ih =>
    unfold generateFields at h
    by_cases hg : f.type = FieldType.TYPE_GROUP
    · rw [if_pos hg] at h
      cases h
      rfl
    · rw [if_neg hg] at h
      exact ih h

theorem generateFields_group (fields : List FieldDesc) (field : FieldDesc)
    (hf : field ∈ fields) (hg : field.type = FieldType.TYPE_GROUP) :
    generateFields fields = .error Panic.unsupportedGroup := by
  induction fields with
  | nil => cases hf
  | cons f rest ih =>
    unfold generateFields
    by_cases hg' : f.type = FieldType.TYPE_GROUP
    · rw [if_pos hg']
    · rw [if_neg hg']
      rcases List.mem_cons.1 hf with h | h
      · subst h; exact absurd hg hg'
      · exact ih h

theorem generateMessages_error (proto3 : Bool) (messages : List MessageDesc) (e : Panic)
    (h : generateMessages proto3 messages = .error e) : e = Panic.unsupportedGroup := by
  induction messages with
  | nil => simp [generateMessages] at h
  | cons m rest ih =>
    unfold generateMessages at h
    by_cases hs : m.sizer = true
    · by_cases hm : m.mapEntry = true
      · simp only [hs, hm, Bool.not_true, Bool.false_eq_true, if_false, if_true] at h
        exact ih h
      · simp only [hs, hm, Bool.not_true, Bool.false_eq_true, if_false] at h
        cases hf : generateFields m.fields with
        | error e' =>
          rw [hf] at h
          simp only [Except.error.injEq] at h
          subst h
          exact generateFields_error _ _ hf
        | ok u =>
          rw [hf] at h
          cases hr : generateMessages proto3 rest with
          | error e' =>
            rw [hr] at h
            simp only [Except.error.injEq] at h
            subst h
            exact ih hr
          | ok ms => rw [hr] at h; cases h
    · have hs' : m.sizer = false := by simpa using hs
      simp only [hs', Bool.not_false, if_true] at h
      exact ih h

theorem generateMessages_group (proto3 : Bool) (messages : List MessageDesc)
    (message : MessageDesc) (field : FieldDesc)
    (hmsg : message ∈ messages) (hs : message.sizer = true) (hm : message.mapEntry = false)
    (hf : field ∈ message.fields) (hg : field.type = FieldType.TYPE_GROUP) :
    generateMessages proto3 messages = .error Panic.unsupportedGroup := by
  induction messages with
  | nil => cases hmsg
  | cons m rest ih =>
    have herr : ∀ e, generateMessages proto3 (m :: rest) = .error e →
        generateMessages proto3 (m :: rest) = .error Panic.unsupportedGroup := by
      intro e he
      rw [he, generateMessages_error proto3 _ e he]
    rcases List.mem_cons.1 hmsg with h | h
    · subst h
      unfold generateMessages
      simp only [hs, hm, Bool.not_true, Bool.false_eq_true, if_false]
      rw [generateFields_group _ field hf hg]
    · have hrest := ih h
      cases hall : generateMessages proto3 (m :: rest) with
      | error e => rw [← hall]; exact herr e hall
      | ok ms =>
        exfalso
        unfold generateMessages at hall
        by_cases hs' : m.sizer = true
        · by_cases hm' : m.mapEntry = true
          · simp only [hs', hm', Bool.not_true, Bool.false_eq_true, if_false, if_true] at hall
            rw [hrest] at hall
            cases hall
          · simp only [hs', hm', Bool.not_true, Bool.false_eq_true, if_false] at hall
            cases hf' : generateFields m.fields with
            | error e' => rw [hf'] at hall; cases hall
            | ok u =>
              rw [hf', hrest] at hall
              cases hall
        · have hs'' : m.sizer = false := by simpa using hs'
          simp only [hs'', Bool.not_false, if_true] at hall
          rw [hrest] at hall
          cases hall

/-- C15: for every sizer-enabled message that is not a map entry and declares
a field of the group type, singular or repeated, `Generate` panics with "size
does not support group" while it processes the file, so that it returns no
`Size` method at all. -/
theorem Generate_group_panics (file : FileDesc) (message : MessageDesc) (field : FieldDesc)
    (hmsg : message ∈ file.messages) (hs : message.sizer = true)
    (hm : message.mapEntry = false)
    (hf : field ∈ message.fields) (hg : field.type = FieldType.TYPE_GROUP) :
    Generate file = .error Panic.unsupportedGroup :=
  generateMessages_group file.proto3 file.messages message field hmsg hs hm hf hg

theorem Generate_group_panics_witness :
    groupMessage ∈ (⟨true, [exampleA, groupMessage]⟩ : FileDesc).messages
      ∧ Generate ⟨true, [exampleA, groupMessage]⟩ = .error Panic.unsupportedGroup :=
  ⟨by simp, Generate_group_panics ⟨true, [exampleA, groupMessage]⟩ groupMessage
    ⟨2, FieldType.TYPE_GROUP, true, false, true, false, none⟩
    (by simp) rfl rfl (by simp [groupMessage]) rfl⟩

theorem generateFields_ok (fields : List FieldDesc)
    (h : ∀ f ∈ fields, f.type ≠ FieldType.TYPE_GROUP) : generateFields fields = .ok () := by
  induction fields with
  | nil => rfl
  | cons f rest ih =>
    unfold generateFields
    rw [if_neg (h f (List.mem_cons_self _ _))]
    exact ih (fun g hg => h g (List.mem_cons_of_mem _ hg))

theorem generateMessages_ok (proto3 : Bool) (messages : List MessageDesc)
    (h : ∀ m ∈ messages, m.sizer = true → m.mapEntry = false →
      ∀ f ∈ m.fields, f.type ≠ FieldType.TYPE_GROUP) :
    ∃ methods, generateMessages proto3 messages = .ok methods
      ∧ ∀ m ∈ messages, m.sizer = true → m.mapEntry = false →
          (m, generatedSize proto3 m) ∈ methods := by
  induction messages with
  | nil => exact ⟨[], rfl, fun m hm => by cases hm⟩
  | cons m rest ih =>
    obtain ⟨ms, hms, hall⟩ := ih (fun x hx => h x (List.mem_cons_of_mem _ hx))
    unfold generateMessages
    by_cases hs : m.sizer = true
    · by_cases hm : m.mapEntry = true
      · simp only [hs, hm, Bool.not_true, Bool.false_eq_true, if_false, if_true]
        refine ⟨ms, hms, ?_⟩
        intro x hx hxs hxm
        rcases List.mem_cons.1 hx with hx | hx
        · subst hx; rw [hm] at hxm; cases hxm
        · exact hall x hx hxs hxm
      · have hm' : m.mapEntry = false := by simpa using hm
        simp only [hs, hm', Bool.not_true, Bool.false_eq_true, if_false]
        rw [generateFields_ok _ (h m (List.mem_cons_self _ _) hs hm'), hms]
        refine ⟨(m, generatedSize proto3 m) :: ms, rfl, ?_⟩
        intro x hx hxs hxm
        rcases List.mem_cons.1 hx with hx | hx
        · subst hx; exact List.mem_cons_self _ _
        · exact List.mem_cons_of_mem _ (hall x hx hxs hxm)
    · have hs' : m.sizer = false := by simpa using hs
      simp only [hs', Bool.not_false, if_true]
      refine ⟨ms, hms, ?_⟩
      intro x hx hxs hxm
      rcases List.mem_cons.1 hx with hx | hx
      · subst hx; rw [hs'] at hxs; cases hxs
      · exact hall x hx hxs hxm

theorem keySize_1_2' : keySize 1 WireBytes = 1 := by
  simp [keySize, keySizeLoop, uint32, WireBytes]

/-- C16, as stated, fails: for the sizer-enabled message whose repeated string
field declares `packed`, `Generate` does not fail; it prints a `Size` method,
and that method sizes the one-element value `["a"]` as 3 bytes, tag, length
and one byte of data. -/
theorem Generate_packed_string :
    Generate packedStringFile
        = .ok [(packedStringMessage, generatedSize false packedStringMessage)]
      ∧ generatedSize false packedStringMessage
          (Val.msg false packedStringMessage [Val.list [Val.bytes [97]]] Extensions.nil none)
        = 3 := by
  refine ⟨rfl, ?_⟩
  simp [generatedSize, sizeFields, sizeField, sizeTrailer, packedStringMessage, Val.len,
    Val.elems, keySize_1_2', sov_of_lt]

/-- C16, amended: `Generate` does not examine whether `packed` is declared on a
field that cannot be packed.  Whenever no field of a generated message is of
the group type it prints a `Size` method for every sizer-enabled message that
is not a map entry, and for a string, bytes or message field the printed code
adds the same number of bytes with the `packed` declaration as without it. -/
theorem packed_nonNumeric_ignored (file : FileDesc) (proto3 : Bool) (field : FieldDesc)
    (v : Val) (fSize : Nat) (eSizes : List Nat)
    (hng : ∀ m ∈ file.messages, m.sizer = true → m.mapEntry = false →
      ∀ f ∈ m.fields, f.type ≠ FieldType.TYPE_GROUP)
    (ht : field.type = FieldType.TYPE_STRING ∨ field.type = FieldType.TYPE_BYTES
      ∨ field.type = FieldType.TYPE_MESSAGE) :
    (∃ methods, Generate file = .ok methods
        ∧ ∀ m ∈ file.messages, m.sizer = true → m.mapEntry = false →
            (m, generatedSize file.proto3 m) ∈ methods)
      ∧ sizeField proto3 { field with packed := true } v fSize eSizes
          = sizeField proto3 { field with packed := false } v fSize eSizes := by
  refine ⟨generateMessages_ok file.proto3 file.messages hng, ?_⟩
  obtain ⟨number, type, repeated, packed, nullable, customtype, map⟩ := field
  simp only at ht
  rcases ht with h | h | h <;> subst h <;>
    simp [sizeField, wireToType, GoTypeWire, FieldDesc.IsMessage]

theorem packed_nonNumeric_ignored_witness :
    (∃ methods, Generate packedStringFile = .ok methods
        ∧ ∀ m ∈ packedStringFile.messages, m.sizer = true → m.mapEntry = false →
            (m, generatedSize packedStringFile.proto3 m) ∈ methods)
      ∧ sizeField false
            { (⟨1, FieldType.TYPE_STRING, true, true, true, false, none⟩ : FieldDesc)
                with packed := true }
            (Val.list [Val.bytes [97]]) 0 []
          = sizeField false
            { (⟨1, FieldType.TYPE_STRING, true, true, true, false, none⟩ : FieldDesc)
                with packed := false }
            (Val.list [Val.bytes [97]]) 0 [] :=
  packed_nonNumeric_ignored packedStringFile false
    ⟨1, FieldType.TYPE_STRING, true, true, true, false, none⟩ (Val.list [Val.bytes [97]]) 0 []
    (by simp [packedStringFile, packedStringMessage]) (Or.inl rfl)

/-! ## Nested messages and bytes -/

theorem keySize_bytes (n : Int) (t : FieldType) (p : Bool)
    (ht : t = FieldType.TYPE_MESSAGE ∨ t = FieldType.TYPE_BYTES ∨ t = FieldType.TYPE_STRING) :
    keySize n (if p = true then WireBytes else wireToType (GoTypeWire t)) = keySize n 2 := by
  rcases ht with h | h | h <;> subst h <;> cases p <;> rfl

theorem listNilFree_eq (es : List Val) : listNilFree es = es.map Val.nilFree := by
  induction es with
  | nil => rfl
  | cons e es ih => simp [listNilFree, ih]

theorem nilFree_not_nil (v : Val) (h : v.nilFree = true) : v.isNil = false := by
  cases v <;> simp [Val.nilFree] at h <;> rfl

/-- C17: for every singular nullable nested-message field, proto2 or proto3,
the generated `Size` adds 0 when the field is nil, and when the field holds a
value on which the call `m.f.Size()` returns it adds
`tag + VarintLength(l) + l`, `l` being the `Size` of the nested value; for a
repeated message field or a repeated custom-typed bytes field on whose
elements the calls `e.Size()` return, none of them being nil, it adds the same
`tag + VarintLength(l) + l` once per element.  In both cases no call of `Size`
has a nil receiver. -/
theorem nested_message_field (proto3 : Bool) (field rfield : FieldDesc) (v : Val)
    (es : List Val)
    (ht : field.type = FieldType.TYPE_MESSAGE) (hmap : field.map = none)
    (hrep : field.repeated = false) (hnull : field.nullable = true)
    (hrt : (rfield.type = FieldType.TYPE_MESSAGE ∧ rfield.map = none)
      ∨ (rfield.type = FieldType.TYPE_BYTES ∧ rfield.customtype = true))
    (hrrep : rfield.repeated = true)
    (hv : v.nilFree = true) (hes : ∀ e ∈ es, e.nilFree = true) :
    fieldSize proto3 field Val.nil = 0
      ∧ fieldNilFree proto3 field v v.nilFree (elemNilFree v) = true
      ∧ fieldSize proto3 field v = keySize field.number 2 + VarintLength v.Size + v.Size
      ∧ fieldNilFree proto3 rfield (Val.list es) (Val.list es).nilFree
          (elemNilFree (Val.list es)) = true
      ∧ fieldSize proto3 rfield (Val.list es)
          = (es.map (fun e => keySize rfield.number 2 + VarintLength e.Size + e.Size)).sum := by
  have hvn : v.isNil = false := nilFree_not_nil v hv
  refine ⟨?_, ?_, ?_, ?_, ?_⟩
  · obtain ⟨number, type, repeated, packed, nullable, customtype, map⟩ := field
    simp only at ht hmap hrep hnull
    subst ht hmap hrep hnull
    simp [fieldSize, sizeField, FieldDesc.IsMessage, Val.isNil]
  · obtain ⟨number, type, repeated, packed, nullable, customtype, map⟩ := field
    simp only at ht hmap hrep hnull
    subst ht hmap hrep hnull
    simp [fieldNilFree, hvn, hv]
  · obtain ⟨number, type, repeated, packed, nullable, customtype, map⟩ := field
    simp only at ht hmap hrep hnull
    subst ht hmap hrep hnull
    simp only [fieldSize, sizeField, FieldDesc.IsMessage, hvn, keySize_bytes _ _ _ (Or.inl rfl),
      sov_eq_VarintLength]
    simp
    omega
  · obtain ⟨number, type, repeated, packed, nullable, customtype, map⟩ := rfield
    simp only at hrt hrrep
    subst hrrep
    have hall : (listNilFree es).all id = true := by
      rw [listNilFree_eq, List.all_eq_true]
      intro b hb
      obtain ⟨e, he, rfl⟩ := List.mem_map.1 hb
      exact hes e he
    cases es with
    | nil => simp [fieldNilFree, Val.len]
    | cons e0 es0 =>
      rcases hrt with ⟨h1, h2⟩ | ⟨h1, h2⟩ <;> subst h1 h2 <;>
        simp only [fieldNilFree, Val.len, elemNilFree] <;>
        simpa using hall
  · obtain ⟨number, type, repeated, packed, nullable, customtype, map⟩ := rfield
    simp only at hrt hrrep
    subst hrrep
    have hs : ∀ k : Nat, (es.map (fun e => k + e.Size + sov e.Size)).sum
        = (es.map (fun e => k + VarintLength e.Size + e.Size)).sum :=
      fun k => sum_map_congr _ _ _ (fun e _ => by rw [sov_eq_VarintLength]; omega)
    cases es with
    | nil => simp [fieldSize, sizeField, Val.len]
    | cons e0 es0 =>
      rcases hrt with ⟨h1, h2⟩ | ⟨h1, h2⟩ <;> subst h1 h2 <;>
        simp only [fieldSize, sizeField, Val.len, elemSizes, listSizes_eq, List.map_map,
          keySize_bytes _ _ _ (Or.inl rfl), keySize_bytes _ _ _ (Or.inr (Or.inl rfl))] <;>
        simp [Function.comp_def] <;>
        simpa using hs (keySize number 2)

theorem nested_message_field_witness :
    exampleAValue.nilFree = true
      ∧ (∀ e ∈ [Val.custom [7, 7], Val.custom []], e.nilFree = true)
      ∧ (fieldSize true ⟨1, FieldType.TYPE_MESSAGE, false, false, true, false, none⟩ Val.nil = 0
        ∧ fieldNilFree true ⟨1, FieldType.TYPE_MESSAGE, false, false, true, false, none⟩
            exampleAValue exampleAValue.nilFree (elemNilFree exampleAValue) = true
        ∧ fieldSize true ⟨1, FieldType.TYPE_MESSAGE, false, false, true, false, none⟩
              exampleAValue
            = keySize
                (⟨1, FieldType.TYPE_MESSAGE, false, false, true, false, none⟩ : FieldDesc).number
                2
              + VarintLength exampleAValue.Size + exampleAValue.Size
        ∧ fieldNilFree true ⟨2, FieldType.TYPE_BYTES, true, false, false, true, none⟩
            (Val.list [Val.custom [7, 7], Val.custom []])
            (Val.list [Val.custom [7, 7], Val.custom []]).nilFree
            (elemNilFree (Val.list [Val.custom [7, 7], Val.custom []])) = true
        ∧ fieldSize true ⟨2, FieldType.TYPE_BYTES, true, false, false, true, none⟩
              (Val.list [Val.custom [7, 7], Val.custom []])
            = ([Val.custom [7, 7], Val.custom []].map
                (fun e =>
                  keySize
                    (⟨2, FieldType.TYPE_BYTES, true, false, false, true, none⟩ : FieldDesc).number
                    2
                  + VarintLength e.Size + e.Size)).sum) :=
  ⟨by decide, by decide, nested_message_field true
    ⟨1, FieldType.TYPE_MESSAGE, false, false, true, false, none⟩
    ⟨2, FieldType.TYPE_BYTES, true, false, false, true, none⟩ exampleAValue
    [Val.custom [7, 7], Val.custom []] rfl rfl rfl rfl (Or.inr ⟨by decide, by decide⟩) rfl
    (by decide) (by decide)⟩

/-- C18: for every singular bytes field without custom type, in a proto2 file
the generated `Size` adds `tag + VarintLength(len) + len` whenever the field
is not nil, also when `len = 0` (then `tag + 1`), and adds 0 only when the
field is nil; in a proto3 file the same field adds 0 whenever `len = 0`. -/
theorem bytes_field (field : FieldDesc) (b : List Nat)
    (ht : field.type = FieldType.TYPE_BYTES) (hc : field.customtype = false)
    (hrep : field.repeated = false) :
    fieldSize false field Val.nil = 0
      ∧ fieldSize false field (Val.bytes b)
          = keySize field.number 2 + VarintLength b.length + b.length
      ∧ fieldSize false field (Val.bytes []) = keySize field.number 2 + 1
      ∧ 0 < fieldSize false field (Val.bytes b)
      ∧ fieldSize true field Val.nil = 0
      ∧ (b.length = 0 → fieldSize true field (Val.bytes b) = 0) := by
  obtain ⟨number, type, repeated, packed, nullable, customtype, map⟩ := field
  simp only at ht hc hrep
  subst ht hc hrep
  have hk := keySize_bytes number FieldType.TYPE_BYTES packed (Or.inr (Or.inl rfl))
  have h2 : fieldSize false ⟨number, FieldType.TYPE_BYTES, false, packed, nullable, false, map⟩
      (Val.bytes b) = keySize number 2 + VarintLength b.length + b.length := by
    simp only [fieldSize, sizeField, FieldDesc.IsMessage, Val.isNil, Val.len, hk,
      sov_eq_VarintLength]
    simp
    omega
  refine ⟨?_, h2, ?_, ?_, ?_, ?_⟩
  · simp [fieldSize, sizeField, FieldDesc.IsMessage, Val.isNil]
  · simp only [fieldSize, sizeField, FieldDesc.IsMessage, Val.isNil, Val.len, hk]
    simp [sov_0]
  · rw [h2]
    have := keySize_pos number 2
    omega
  · simp [fieldSize, sizeField, FieldDesc.IsMessage, Val.isNil]
  · intro hb
    simp [fieldSize, sizeField, FieldDesc.IsMessage, Val.isNil, Val.len, hb]

theorem bytes_field_witness :
    (⟨3, FieldType.TYPE_BYTES, false, false, true, false, none⟩ : FieldDesc).customtype = false
      ∧ (fieldSize false ⟨3, FieldType.TYPE_BYTES, false, false, true, false, none⟩ Val.nil = 0
        ∧ fieldSize false ⟨3, FieldType.TYPE_BYTES, false, false, true, false, none⟩
              (Val.bytes [1, 2])
            = keySize 3 2 + VarintLength ([1, 2] : List Nat).length
              + ([1, 2] : List Nat).length
        ∧ fieldSize false ⟨3, FieldType.TYPE_BYTES, false, false, true, false, none⟩
              (Val.bytes []) = keySize 3 2 + 1
        ∧ 0 < fieldSize false ⟨3, FieldType.TYPE_BYTES, false, false, true, false, none⟩
              (Val.bytes [1, 2])
        ∧ fieldSize true ⟨3, FieldType.TYPE_BYTES, false, false, true, false, none⟩ Val.nil = 0
        ∧ (([1, 2] : List Nat).length = 0 →
            fieldSize true ⟨3, FieldType.TYPE_BYTES, false, false, true, false, none⟩
              (Val.bytes [1, 2]) = 0)) :=
  ⟨rfl, bytes_field ⟨3, FieldType.TYPE_BYTES, false, false, true, false, none⟩ [1, 2]
    rfl rfl rfl⟩

/-- C19: for every repeated field, of any type, packed or not, whose value
holds no element, the generated `Size` adds 0; in particular an empty packed
field does not add `tag + VarintLength(0)`. -/
theorem empty_repeated_field (proto3 : Bool) (field : FieldDesc) (v : Val)
    (hrep : field.repeated = true) (hv : v.len = 0) :
    fieldSize proto3 field v = 0
      ∧ fieldSize proto3 field v ≠ keySize field.number 2 + VarintLength 0 := by
  have h : fieldSize proto3 field v = 0 := by
    simp [fieldSize, sizeField, hrep, hv]
  refine ⟨h, ?_⟩
  rw [h]
  have := keySize_pos field.number 2
  omega

theorem empty_repeated_field_witness :
    (Val.list []).len = 0
      ∧ (fieldSize false ⟨4, FieldType.TYPE_SINT32, true, true, true, false, none⟩
            (Val.list []) = 0
        ∧ fieldSize false ⟨4, FieldType.TYPE_SINT32, true, true, true, false, none⟩
            (Val.list []) ≠ keySize 4 2 + VarintLength 0) :=
  ⟨rfl, empty_repeated_field false ⟨4, FieldType.TYPE_SINT32, true, true, true, false, none⟩
    (Val.list []) rfl rfl⟩

/-! ## Negative values of the varint family -/

theorem sov_uint64_neg (e : Int) (h0 : e < 0) (h1 : -2 ^ 63 ≤ e) : sov (uint64 e) = 10 := by
  rw [uint64_of_neg e h0 (by omega)]
  apply le_antisymm
  · rw [sov_le_iff 9]
    norm_num
    omega
  · by_contra hlt
    have h9 : sov (e + 2 ^ 64).toNat ≤ 8 + 1 := by omega
    rw [sov_le_iff 8] at h9
    norm_num at h9
    omega

theorem sov_uint64_int32 (x : Int) (h0 : 0 ≤ x) (h1 : x < 2 ^ 31) : sov (uint64 x) ≤ 5 := by
  rw [uint64_of_nonneg x h0 (by omega), sov_le_iff 4]
  norm_num
  omega

/-- C20: for every negative value of an int32, int64 or enum field, whether it
is the value of a singular field, an element of an unpacked or of a packed
repeated field, or a map key or value, the payload the generated code computes
is exactly 10 bytes, the value being converted with `uint64(e)` before `sov`
is applied; for every non-negative int32 value the payload is at most 5
bytes. -/
theorem negative_varint_payload (proto3 : Bool) (number : Int) (type : FieldType)
    (nullable customtype : Bool) (e x : Int) (es : List Int) (l : Nat)
    (ht : type = FieldType.TYPE_INT32 ∨ type = FieldType.TYPE_INT64
      ∨ type = FieldType.TYPE_ENUM)
    (he : -2 ^ 63 ≤ e ∧ e < 0) (hes : ∀ a ∈ es, -2 ^ 63 ≤ a ∧ a < 0)
    (hx : 0 ≤ x ∧ x < 2 ^ 31) :
    sov (uint64 e) = 10
      ∧ fieldSize proto3 ⟨number, type, false, false, nullable, customtype, none⟩ (Val.int e)
          = keySize number 0 + 10
      ∧ fieldSize proto3 ⟨number, type, true, false, nullable, customtype, none⟩
            (Val.list (es.map Val.int))
          = es.length * (keySize number 0 + 10)
      ∧ fieldSize proto3 ⟨number, type, true, true, nullable, customtype, none⟩
            (Val.list (es.map Val.int))
          = (if es.isEmpty = true then 0
              else keySize number 2 + sov (es.length * 10) + es.length * 10)
      ∧ mapKeySum type (Val.int e) = 10
      ∧ mapValueSum type (Val.int e) l = 10
      ∧ sov (uint64 x) ≤ 5 := by
  have h10 := sov_uint64_neg e he.2 he.1
  have hne : e ≠ 0 := by omega
  have hsum : ∀ k : Nat, ((es.map Val.int).map (fun a => k + sov a.u64)).sum
      = es.length * (k + 10) := by
    intro k
    rw [List.map_map, sum_map_congr _ (fun _ => k + 10) es (fun a ha => by
      simp only [Function.comp, Val.u64]
      rw [sov_uint64_neg a (hes a ha).2 (hes a ha).1]), sum_map_const]
  have hsum0 : ((es.map Val.int).map (fun a => sov a.u64)).sum = es.length * 10 := by
    have := hsum 0
    simpa using this
  refine ⟨h10, ?_, ?_, ?_, ?_, ?_, sov_uint64_int32 x hx.1 hx.2⟩
  · rcases ht with h | h | h <;> subst h <;> cases proto3 <;> cases nullable <;>
      simp [fieldSize, sizeField, FieldDesc.IsMessage, Val.isNil, Val.neZero, Val.u64, hne,
        h10, wireToType, GoTypeWire, WireVarint]
  · cases hes' : es with
    | nil => simp [fieldSize, sizeField, Val.len]
    | cons a rest =>
      rw [← hes']
      have hlen : 0 < (es.map Val.int).length := by rw [hes']; simp
      rcases ht with h | h | h <;> subst h <;>
        simp only [fieldSize, sizeField, Val.len, Val.elems, hlen, wireToType, GoTypeWire,
          WireVarint] <;>
        simpa using hsum (keySize number 0)
  · cases hes' : es with
    | nil => simp [fieldSize, sizeField, Val.len]
    | cons a rest =>
      rw [← hes']
      have hlen : 0 < (es.map Val.int).length := by rw [hes']; simp
      have hemp : es.isEmpty = false := by rw [hes']; rfl
      rcases ht with h | h | h <;> subst h <;>
        simp only [fieldSize, sizeField, Val.len, Val.elems, hlen, WireBytes, hsum0, hemp] <;>
        simp
  · rcases ht with h | h | h <;> subst h <;> simp [mapKeySum, Val.u64, h10]
  · rcases ht with h | h | h <;> subst h <;> simp [mapValueSum, Val.u64, h10]

theorem negative_varint_payload_witness :
    (-2 ^ 63 ≤ (-1 : Int) ∧ (-1 : Int) < 0)
      ∧ (sov (uint64 (-1)) = 10
        ∧ fieldSize true ⟨5, FieldType.TYPE_INT32, false, false, true, false, none⟩
              (Val.int (-1))
            = keySize 5 0 + 10
        ∧ fieldSize true ⟨5, FieldType.TYPE_INT32, true, false, true, false, none⟩
              (Val.list (([-1, -7] : List Int).map Val.int))
            = ([-1, -7] : List Int).length * (keySize 5 0 + 10)
        ∧ fieldSize true ⟨5, FieldType.TYPE_INT32, true, true, true, false, none⟩
              (Val.list (([-1, -7] : List Int).map Val.int))
            = (if ([-1, -7] : List Int).isEmpty = true then 0
                else keySize 5 2 + sov (([-1, -7] : List Int).length * 10)
                  + ([-1, -7] : List Int).length * 10)
        ∧ mapKeySum FieldType.TYPE_INT32 (Val.int (-1)) = 10
        ∧ mapValueSum FieldType.TYPE_INT32 (Val.int (-1)) 0 = 10
        ∧ sov (uint64 300) ≤ 5) :=
  ⟨by decide, negative_varint_payload true 5 FieldType.TYPE_INT32 true false (-1) 300
    [-1, -7] 0 (Or.inl rfl) (by decide) (by decide) (by decide)⟩

end Size
